import Mathlib

/-!
Verification development for the RAG application's text-processing core
(`src/lib/processing/chunk.ts`), its chat route (`src/app/api/chat/route.ts`),
the document-processing endpoint, and the citation renderer
(`src/components/chat-interface.tsx`).

Strings are embedded as `List Char` (`Str`).  JavaScript regular-expression
passes are embedded as executable recursive functions that follow the
left-to-right, non-overlapping, greedy semantics of `String.replace` with a
global regex.  JavaScript `\s` is modelled by the six ASCII whitespace
characters (space, tab, LF, CR, FF, VT); the source texts involved in the
claims contain no other whitespace.  Functions whose JS originals recurse on
non-structural arguments are written with an explicit fuel argument (first
position, structural) so that the kernel can evaluate them; every wrapper
supplies fuel that is sufficient for all inputs, and the out-of-fuel branches
are unreachable for the supplied fuel.
-/

set_option maxRecDepth 20000

abbrev Str := List Char

/-- ASCII model of JavaScript `\s` (and of the whitespace removed by
`String.prototype.trim`). -/
def isWsChar (c : Char) : Bool :=
  c = ' ' || c = '\t' || c = '\n' || c = '\r' || c = '\x0b' || c = '\x0c'

/-- The character class `[ \t]` used by steps 2 and 6 of `preprocessText`. -/
def isSpaceTab (c : Char) : Bool :=
  c = ' ' || c = '\t'

def isDigitChar (c : Char) : Bool :=
  '0' ≤ c && c ≤ '9'

/-- ASCII `[a-z]` as used by the broken-sentence regex. -/
def isLowerAZ (c : Char) : Bool :=
  'a' ≤ c && c ≤ 'z'

/-- The class `[a-z,]` (first capture of the broken-sentence regex). -/
def isLowerOrComma (c : Char) : Bool :=
  isLowerAZ c || c = ','

/-- Left trim: drop leading whitespace. -/
def ltrim (s : Str) : Str := s.dropWhile isWsChar

/-- Right trim: drop trailing whitespace. -/
def rtrim (s : Str) : Str := (s.reverse.dropWhile isWsChar).reverse

/-- JavaScript `String.prototype.trim`. -/
def trim (s : Str) : Str := rtrim (ltrim s)

/-- Step 1a of `preprocessText`: `replace(/\r\n/g, '\n')`. -/
def replCRLF : Str → Str
  | [] => []
  | '\r' :: '\n' :: rest => '\n' :: replCRLF rest
  | c :: rest => c :: replCRLF rest

/-- Step 1b of `preprocessText`: `replace(/\r/g, '\n')`. -/
def replCR (s : Str) : Str :=
  s.map (fun c => if c = '\r' then '\n' else c)

/-- Step 2 of `preprocessText`: `replace(/[ \t]+/g, ' ')` — every maximal run
of spaces/tabs becomes a single space. -/
def collapseSpaceTab : Str → Str
  | [] => []
  | [c] => if isSpaceTab c then [' '] else [c]
  | c :: d :: rest =>
    if isSpaceTab c then
      if isSpaceTab d then collapseSpaceTab (d :: rest)
      else ' ' :: d :: collapseSpaceTab rest
    else c :: collapseSpaceTab (d :: rest)

/-- Step 3 of `preprocessText`: `replace(/([a-z,])\n([a-z])/g, '$1 $2')` with
JS global-replace semantics: after a match the scan resumes after the matched
text, so overlapping candidates are not rewritten in the same pass. -/
def fixBroken : Str → Str
  | [] => []
  | [c] => [c]
  | [c, d] => [c, d]
  | a :: '\n' :: b :: rest =>
    if isLowerOrComma a && isLowerAZ b then a :: ' ' :: b :: fixBroken rest
    else a :: fixBroken ('\n' :: b :: rest)
  | c :: d :: e :: rest => c :: fixBroken (d :: e :: rest)

/-- Step 4 of `preprocessText`: `replace(/\n{3,}/g, '\n\n')` — runs of three
or more newlines collapse to exactly two. -/
def collapseNewlines : Str → Str
  | a :: b :: c :: rest =>
    if a = '\n' && b = '\n' && c = '\n' then collapseNewlines (b :: c :: rest)
    else a :: collapseNewlines (b :: c :: rest)
  | s => s

/-- Tail-recursive worker for `lastIdxOf`: `i` is the index of the head of
the remaining list, `best` the last hit seen so far. -/
def lastIdxOfAux (c : Char) : Str → Nat → Option Nat → Option Nat
  | [], _, best => best
  | x :: r, i, best => lastIdxOfAux c r (i + 1) (if x = c then some i else best)

/-- Last index at which `c` occurs in `l` (JS `lastIndexOf` restricted to a
prefix elsewhere). -/
def lastIdxOf (c : Char) (l : Str) : Option Nat :=
  lastIdxOfAux c l 0 none

/-- Shared tail `\s*$` rule of the three multiline artifact regexes, applied
to the text `r` remaining after the mandatory part of the pattern.  With the
greedy `\s*` and multiline `$` (end of input or before `\n`), the match
consumes the whole remaining whitespace run when it reaches the end of input,
and otherwise consumes the run up to (but excluding) its last `\n`; if the
run neither reaches the end nor contains a `\n`, the pattern fails. -/
def tailWsMatch (r : Str) : Option Nat :=
  let w := r.takeWhile isWsChar
  if w.length = r.length then some w.length
  else
    match lastIdxOf '\n' w with
    | some k => some k
    | none => none

/-- Matcher for `^\s*\d+\s*$` (multiline, at a `^` position): returns the
length of the match starting here, if any. -/
def matchDigitLineAt (s : Str) : Option Nat :=
  let w1 := s.takeWhile isWsChar
  let r1 := s.drop w1.length
  let d := r1.takeWhile isDigitChar
  if d.isEmpty then none
  else
    match tailWsMatch (r1.drop d.length) with
    | some k => some (w1.length + d.length + k)
    | none => none

/-- Case-insensitive check of the literal `Page ` followed by digits. -/
def matchPageLineAt (s : Str) : Option Nat :=
  let w1 := s.takeWhile isWsChar
  match s.drop w1.length with
  | p :: a :: g :: e :: ' ' :: r2 =>
    if (p = 'P' || p = 'p') && (a = 'A' || a = 'a') &&
       (g = 'G' || g = 'g') && (e = 'E' || e = 'e') then
      let d := r2.takeWhile isDigitChar
      if d.isEmpty then none
      else
        match tailWsMatch (r2.drop d.length) with
        | some k => some (w1.length + 5 + d.length + k)
        | none => none
    else none
  | _ => none

/-- Matcher for `^\s*-\s*\d+\s*-\s*$` (multiline). -/
def matchDashLineAt (s : Str) : Option Nat :=
  let w1 := s.takeWhile isWsChar
  match s.drop w1.length with
  | '-' :: r1 =>
    let w2 := r1.takeWhile isWsChar
    let r2 := r1.drop w2.length
    let d := r2.takeWhile isDigitChar
    if d.isEmpty then none
    else
      let r3 := r2.drop d.length
      let w3 := r3.takeWhile isWsChar
      match r3.drop w3.length with
      | '-' :: r4 =>
        match tailWsMatch r4 with
        | some k => some (w1.length + 1 + w2.length + d.length + w3.length + 1 + k)
        | none => none
      | _ => none
  | _ => none

/-- Does the list end with a newline?  Used to decide whether the position
after a removed match is again a `^` position. -/
def endsWithNl (l : Str) : Bool :=
  l.getLast? = some '\n'

/-- Global scan of a multiline anchored regex with replacement by the empty
string: at every `^` position (start of input, or just after a `\n` of the
original text) the matcher is tried; matched characters are removed and the
scan resumes after them.  `atStart` records whether the current position is a
`^` position.  Fuel is one unit per consumed character; the out-of-fuel
branch is unreachable when the initial fuel is the text length. -/
def gmScanF (m : Str → Option Nat) : Nat → Bool → Str → Str
  | 0, _, s => s
  | fuel + 1, atStart, s =>
    match s with
    | [] => []
    | c :: rest =>
      if atStart then
        match m s with
        | some L =>
          if L = 0 then c :: gmScanF m fuel (c = '\n') rest
          else gmScanF m fuel (endsWithNl (s.take L)) (s.drop L)
        | none => c :: gmScanF m fuel (c = '\n') rest
      else c :: gmScanF m fuel (c = '\n') rest

def gmStrip (m : Str → Option Nat) (s : Str) : Str :=
  gmScanF m s.length true s

/-- Step 5a of `preprocessText`: `replace(/^\s*\d+\s*$/gm, '')`. -/
def stripDigitOnlyLines (s : Str) : Str := gmStrip matchDigitLineAt s

/-- Step 5b of `preprocessText`: `replace(/^\s*Page \d+\s*$/gmi, '')`. -/
def stripPageLines (s : Str) : Str := gmStrip matchPageLineAt s

/-- Step 5c of `preprocessText`: `replace(/^\s*-\s*\d+\s*-\s*$/gm, '')`. -/
def stripDashLines (s : Str) : Str := gmStrip matchDashLineAt s

/-- Split at `\n` characters (the separators are not kept; an empty line is
an empty list). -/
def splitLines : Str → List Str
  | [] => [[]]
  | '\n' :: rest => [] :: splitLines rest
  | c :: rest =>
    match splitLines rest with
    | l :: ls => (c :: l) :: ls
    | [] => [[c]]

/-- Rejoin lines with `\n` (inverse of `splitLines`). -/
def joinLines : List Str → Str
  | [] => []
  | [l] => l
  | l :: ls => l ++ '\n' :: joinLines ls

/-- Drop a trailing run of spaces/tabs from a single line. -/
def rstripSpaceTab (l : Str) : Str :=
  (l.reverse.dropWhile isSpaceTab).reverse

/-- Step 6 of `preprocessText`: `replace(/[ \t]+$/gm, '')` — strip trailing
spaces/tabs from every line. -/
def stripTrailingWS (s : Str) : Str :=
  joinLines ((splitLines s).map rstripSpaceTab)

/-- `preprocessText` from `src/lib/processing/chunk.ts` (steps 1-7 in source
order). -/
def preprocessText (text : Str) : Str :=
  trim (stripTrailingWS (stripDashLines (stripPageLines (stripDigitOnlyLines
    (collapseNewlines (fixBroken (collapseSpaceTab (replCR (replCRLF text)))))))))

/-! ## Recursive chunker (`chunkText` and helpers) -/

/-- The separator priority table `SEPARATORS` of `chunk.ts`. -/
def SEPARATORS : List Str :=
  [("\n## ").toList, ("\n### ").toList, ("\n#### ").toList,
   ("\n---\n").toList, ("\n___\n").toList,
   ("\n\n\n").toList, ("\n\n").toList,
   (".\n").toList, ("!\n").toList, ("?\n").toList,
   (". ").toList, ("! ").toList, ("? ").toList,
   (";\n").toList, ("; ").toList, (",\n").toList,
   ("\n- ").toList, ("\n* ").toList, ("\n• ").toList, ("\n").toList,
   (" ").toList]

/-- Tail-recursive worker for JS `String.prototype.split` with a non-empty
string separator: left-to-right, non-overlapping.  `part` is the current
piece (reversed), `acc` the completed pieces (reversed).  Fuel is one unit
per consumed character; the wrapper supplies the text length, which
suffices. -/
def splitOnStrAux (sep : Str) : Nat → Str → Str → List Str → List Str
  | _, [], part, acc => (part.reverse :: acc).reverse
  | 0, s, part, acc => ((part.reverse ++ s) :: acc).reverse
  | fuel + 1, c :: rest, part, acc =>
    if sep.isPrefixOf (c :: rest) then
      splitOnStrAux sep fuel (rest.drop (sep.length - 1)) [] (part.reverse :: acc)
    else
      splitOnStrAux sep fuel rest (c :: part) acc

/-- JS `s.split(sep)` for non-empty `sep`. -/
def splitOnStr (sep : Str) (s : Str) : List Str := splitOnStrAux sep s.length s [] []

/-- `splitBySeparator` from `chunk.ts`: split, re-attach the separator to the
beginning of every part but the first, and drop parts that are empty after
trimming.  The empty separator splits into individual characters. -/
def splitBySeparator (s : Str) (sep : Str) : List Str :=
  if sep.isEmpty then
    (s.map (fun c => [c])).filter (fun p => trim p ≠ [])
  else
    (match splitOnStr sep s with
     | [] => []
     | p :: ps => p :: ps.map (fun q => sep ++ q)).filter (fun p => trim p ≠ [])

/-- First index `i ≥ i0` (the accumulator) at which `pat` is a prefix of the
remaining text; `none` when there is no occurrence (JS `indexOf` = -1). -/
def indexOfAux (pat : Str) : Str → Nat → Option Nat
  | [], i => if pat.isPrefixOf [] then some i else none
  | c :: r, i => if pat.isPrefixOf (c :: r) then some i else indexOfAux pat r (i + 1)

/-- JS `hay.indexOf(pat)`. -/
def indexOfStr (hay pat : Str) : Option Nat := indexOfAux pat hay 0

/-- JS `hay.indexOf(pat, from)` where a negative `from` searches from 0. -/
def indexOfFrom (hay pat : Str) (from_ : Int) : Option Nat :=
  let start := from_.toNat
  indexOfAux pat (hay.drop start) start

/-- JS `text.lastIndexOf(c, e)`: last index `≤ e` holding `c`. -/
def lastIndexOfCharLe (c : Char) (t : Str) (e : Nat) : Option Nat :=
  lastIdxOf c (t.take (e + 1))

/-- The sentence endings searched by `findOverlapStart`. -/
def sentenceEnds : List Str :=
  [(". ").toList, ("! ").toList, ("? ").toList,
   (".\n").toList, ("!\n").toList, ("?\n").toList]

/-- The `for`-loop of `findOverlapStart`: try each ending in order; on the
first ending that occurs and whose end position improves `best` while staying
below `text.length - targetOverlap / 2`, update and break.  The fractional
comparison `abs < len - O/2` is expressed exactly as `2*abs + O < 2*len`. -/
def overlapLoop (searchStart textLen targetOverlap : Nat) (searchText : Str) :
    List Str → Nat → Nat
  | [], best => best
  | e :: es, best =>
    match indexOfStr searchText e with
    | some pos =>
      let absPos := searchStart + pos + e.length
      if best < absPos && 2 * absPos + targetOverlap < 2 * textLen then absPos
      else overlapLoop searchStart textLen targetOverlap searchText es best
    | none => overlapLoop searchStart textLen targetOverlap searchText es best

/-- `findOverlapStart` from `chunk.ts`.  In the source it is only invoked
with `text.length > targetOverlap`, where the saturating subtractions below
agree with JS arithmetic. -/
def findOverlapStart (text : Str) (targetOverlap : Nat) : Nat :=
  let searchStart := text.length - targetOverlap - 100
  let searchText := text.drop searchStart
  overlapLoop searchStart text.length targetOverlap searchText sentenceEnds
    (text.length - targetOverlap)

/-- The forced character-split loop of `recursiveSplit` (separator table
exhausted): cut `chunkSize`-sized slices, moving a cut back to the last space
when that space lies beyond half the chunk (`lastSpace > start + C/2`,
expressed exactly as `C < 2*ls`), and trim each slice.  One fuel unit per
slice; the wrapper's fuel (text length) suffices whenever `C ≥ 1`.  (For
`C = 0` the JS loop never terminates; the model then runs out of fuel.) -/
def forceSplitF (C : Nat) : Nat → Str → List Str
  | _, [] => []
  | 0, _ => []
  | fuel + 1, c :: rest =>
    let t := c :: rest
    let e := min C t.length
    let e' := if e < t.length then
        match lastIndexOfCharLe ' ' t e with
        | some ls => if C < 2 * ls then ls else e
        | none => e
      else e
    trim (t.take e') :: forceSplitF C fuel (t.drop e')

/-- `recursiveSplit` from `chunk.ts`, with structural fuel (decremented on
every recursive call).  The wrapper supplies fuel that covers the real
recursion depth, so the out-of-fuel branch is unreachable there. -/
def recursiveSplitF (C : Nat) : Nat → Str → Nat → List Str
  | 0, _, _ => []
  | fuel + 1, text, sepIdx =>
    if text.length ≤ C then [text]
    else if SEPARATORS.length ≤ sepIdx then
      (forceSplitF C text.length text).filter (fun p => p ≠ [])
    else
      let parts := splitBySeparator text (SEPARATORS.getD sepIdx [])
      if parts.length = 1 then recursiveSplitF C fuel text (sepIdx + 1)
      else (parts.map (fun p =>
        if C < p.length then recursiveSplitF C fuel p (sepIdx + 1) else [p])).flatten

def recursiveSplit (C : Nat) (text : Str) : List Str :=
  recursiveSplitF C (22 * (text.length + 1)) text 0

/-- The merge loop of `mergeChunks`: `cur` is `currentChunk`.  On overflow
the closed chunk is pushed and the next chunk is seeded with the overlap tail
of the previous one (joined, like every merge, by a newline). -/
def mergeLoop (C O : Nat) : List Str → Str → List Str
  | [], cur => if trim cur ≠ [] then [trim cur] else []
  | chunk :: rest, cur =>
    let t := trim chunk
    if t = [] then mergeLoop C O rest cur
    else if C < cur.length + t.length + 1 ∧ 0 < cur.length then
      trim cur ::
        (if 0 < O ∧ O < cur.length then
          mergeLoop C O rest (cur.drop (findOverlapStart cur O) ++ '\n' :: t)
        else
          mergeLoop C O rest t)
    else
      mergeLoop C O rest (if cur.isEmpty then t else cur ++ '\n' :: t)

/-- `mergeChunks` from `chunk.ts`. -/
def mergeChunks (chunks : List Str) (C O : Nat) : List Str :=
  mergeLoop C O chunks []

/-- `TextChunk` from `chunk.ts`.  `startChar`/`endChar` are `Int` because the
JS position bookkeeping can go negative (`currentPosition` is
`actualStart + length - chunkOverlap`). -/
structure TextChunk where
  content : Str
  index : Nat
  startChar : Int
  endChar : Int
  deriving DecidableEq, Repr

/-- Step 4 of `chunkText`: position tracking by forward `indexOf` of the
first 50 characters of each merged chunk. -/
def buildChunks (pre : Str) (O : Nat) : List Str → Nat → Int → List TextChunk
  | [], _, _ => []
  | c :: rest, i, pos =>
    let found := indexOfFrom pre (c.take 50) pos
    let actual : Int := match found with | some j => (j : Int) | none => pos
    { content := c, index := i, startChar := actual, endChar := actual + c.length } ::
      buildChunks pre O rest (i + 1) (actual + c.length - O)

/-- `chunkText` from `chunk.ts` with explicit `chunkSize`/`chunkOverlap`
(the defaults are 1000 and 200). -/
def chunkText (text : Str) (C O : Nat) : List TextChunk :=
  let pre := preprocessText text
  if pre.isEmpty then []
  else buildChunks pre O (mergeChunks (recursiveSplit C pre) C O) 0 0

/-! ## Chat route (`src/app/api/chat/route.ts`) -/

/-- `MatchResult` rows returned by the `match_embeddings` search. -/
structure MatchResult where
  id : Str
  document_id : Str
  content : Str
  similarity : ℚ
  deriving DecidableEq

/-- `NumberedSource` built for citations. -/
structure NumberedSource where
  number : Nat
  document_id : Str
  filename : Str
  content : Str
  similarity : ℚ
  deriving DecidableEq

def unknownDocName : Str := ("Unknown document").toList

/-- `documentMap[m.document_id] || 'Unknown document'`: a missing entry and a
falsy (empty) filename both fall back to the sentinel. -/
def resolveFilename (docMap : List (Str × Str)) (docId : Str) : Str :=
  match docMap.lookup docId with
  | some name => if name.isEmpty then unknownDocName else name
  | none => unknownDocName

/-- `matches.map((m, index) => ({number: index + 1, ...}))`; `i` is the
current index. -/
def numberSources (docMap : List (Str × Str)) : List MatchResult → Nat → List NumberedSource
  | [], _ => []
  | m :: rest, i =>
    { number := i + 1, document_id := m.document_id,
      filename := resolveFilename docMap m.document_id,
      content := m.content, similarity := m.similarity } :: numberSources docMap rest (i + 1)

/-- The three mutually exclusive prompt templates of the chat route. -/
inductive PromptMode where
  | grounded
  | noRelevantMatch
  | noDocuments
  deriving DecidableEq

/-- Observable retrieval decision of one chat request.  `searchParams` is
`some (threshold, topK)` exactly when the embedding/search call is made. -/
structure RetrievalOutcome where
  searchParams : Option (ℚ × Nat)
  sources : List NumberedSource
  mode : PromptMode
  deriving DecidableEq

/-- Retrieval/prompt-selection logic of the chat route `POST` (lines 84-208):
`docCount` is the owner's count of `ready` documents; `searchResult` is what
`match_embeddings` would return (it is only consulted when a search actually
happens); `docMap` resolves document ids to filenames. -/
def chatRetrieval (docCount : Nat) (searchResult : List MatchResult)
    (docMap : List (Str × Str)) : RetrievalOutcome :=
  let hasDocuments := 0 < docCount
  let matchRows := if hasDocuments then searchResult else []
  let sources := numberSources docMap matchRows 0
  { searchParams := if hasDocuments then some ((1 : ℚ) / 2, 5) else none
    sources := sources
    mode :=
      if hasDocuments ∧ 0 < sources.length then .grounded
      else if hasDocuments then .noRelevantMatch
      else .noDocuments }

/-! ## Streaming response coordinator (`route.ts` lines 71-262) -/

/-- Observable events and side effects of one streaming chat request, in
order of occurrence. -/
inductive StreamEvent where
  | userWrite (content : Str)
  | metadata (sources : List NumberedSource)
  | chunk (text : Str)
  | assistantWrite (content : Str) (sources : Option (List NumberedSource))
  | touchChat
  | done
  | errorEvt
  deriving DecidableEq

/-- Events emitted by the `ReadableStream` `start` callback.  `delivered` is
the list of fragments the generation stream yields before it either finishes
(`genFails = false`) or raises (`genFails = true`); empty fragments are
neither forwarded nor accumulated (`if (text)`). -/
def streamEvents (sources : List NumberedSource) (delivered : List Str)
    (genFails : Bool) : List StreamEvent :=
  StreamEvent.metadata sources ::
    (delivered.filter (fun t => ¬ t.isEmpty)).map StreamEvent.chunk ++
    (if genFails then [StreamEvent.errorEvt]
     else [StreamEvent.assistantWrite ((delivered.filter (fun t => ¬ t.isEmpty)).flatten)
             (if sources.isEmpty then none else some sources),
           StreamEvent.touchChat, StreamEvent.done])

/-- Whole-request observable order: the inbound user message is written
before the stream starts. -/
def requestEvents (userMsg : Str) (sources : List NumberedSource)
    (delivered : List Str) (genFails : Bool) : List StreamEvent :=
  StreamEvent.userWrite userMsg :: streamEvents sources delivered genFails

/-! ## Document-processing endpoint (`/api/process-document`) -/

inductive DocStatus where
  | pending
  | processing
  | ready
  | error
  deriving DecidableEq

inductive PipelineResponse where
  | ok (chunkCount : Nat)
  | err (status : Nat)
  deriving DecidableEq

/-- Observable outcome of the processing endpoint: the document's final
persisted status, how many chunk rows were inserted, and the HTTP result. -/
structure PipelineOutcome where
  finalStatus : DocStatus
  insertedChunks : Nat
  response : PipelineResponse
  deriving DecidableEq

/-- The `POST` handler of the process-document endpoint, on the regular
(fallback) chunking path.  The document's status has already been set to
`processing`; `downloadOk`/`parseOk` abstract the storage download and the
external `parseDocument` call; `text` is the parsed text; `embedFailAt` is
the first chunk index (if any) at which `generateEmbedding` throws.  A throw
from the loop lands in the outer `catch`, which returns a 500 response
without touching the document's status. -/
def processDocument (downloadOk : Bool) (parseOk : Bool) (text : Str)
    (embedFailAt : Option Nat) : PipelineOutcome :=
  if ¬ downloadOk then
    { finalStatus := .error, insertedChunks := 0, response := .err 500 }
  else if ¬ parseOk then
    { finalStatus := .processing, insertedChunks := 0, response := .err 500 }
  else
    let chunks := chunkText text 1000 200
    match embedFailAt with
    | some i =>
      if i < chunks.length then
        { finalStatus := .processing, insertedChunks := i, response := .err 500 }
      else
        { finalStatus := .ready, insertedChunks := chunks.length,
          response := .ok chunks.length }
    | none =>
      { finalStatus := .ready, insertedChunks := chunks.length,
        response := .ok chunks.length }

/-! ## Citation renderer (`chat-interface.tsx`, `renderMessageWithCitations`) -/

/-- A rendered piece of an assistant message: literal text or a clickable
citation button for source number `n`. -/
inductive Rendered where
  | lit (s : Str)
  | cite (n : Nat)
  deriving DecidableEq

/-- `parseInt` on a non-empty digit string. -/
def digitsToNat (d : Str) : Nat :=
  d.foldl (fun acc c => 10 * acc + (c.toNat - ('0').toNat)) 0

/-- Try to read a citation marker `[<digits>]` at the head of `s`; returns
the digits and the remaining text. -/
def markerAt : Str → Option (Str × Str)
  | '[' :: rest =>
    let d := rest.takeWhile isDigitChar
    if d.isEmpty then none
    else
      match rest.drop d.length with
      | ']' :: r => some (d, r)
      | _ => none
  | _ => none

/-- Tail-recursive worker for `content.split(/(\[\d+\])/g)`: `part` is the
current literal part (reversed), `acc` the completed parts (reversed).
Marker parts are kept, like JS `split` with a capturing group; adjacent
markers produce empty literal parts, as does a marker at either end. -/
def splitCitationsAux : Nat → Str → Str → List Str → List Str
  | _, [], part, acc => (part.reverse :: acc).reverse
  | 0, s, part, acc => ((part.reverse ++ s) :: acc).reverse
  | fuel + 1, c :: rest, part, acc =>
    match markerAt (c :: rest) with
    | some (d, r) =>
      splitCitationsAux fuel r [] (('[' :: d ++ [']']) :: part.reverse :: acc)
    | none => splitCitationsAux fuel rest (c :: part) acc

def splitCitations (content : Str) : List Str :=
  splitCitationsAux content.length content [] []

/-- `part.match(/\[(\d+)\]/)`: first marker anywhere in the part, parsed. -/
def firstCitationIn : Str → Option Nat
  | [] => none
  | c :: rest =>
    match markerAt (c :: rest) with
    | some (d, _) => some (digitsToNat d)
    | none => firstCitationIn rest

/-- `renderMessageWithCitations` from `chat-interface.tsx`: with no sources
the whole content is a single literal span; otherwise each split part whose
citation number has a matching source becomes a clickable citation, and
every other part stays literal. -/
def renderMessageWithCitations (content : Str) (sources : List NumberedSource) :
    List Rendered :=
  if sources.isEmpty then [.lit content]
  else
    (splitCitations content).map (fun part =>
      match firstCitationIn part with
      | some n =>
        match sources.find? (fun s => s.number = n) with
        | some _ => .cite n
        | none => .lit part
      | none => .lit part)

def xyStuff : Str := (List.replicate 498 ('y' :: ' ' :: [])).flatten ++ ['y']

def Txy : Str := List.replicate 600 'x' ++ '\n' :: '\n' :: xyStuff

/-- Content of the first chunk of `chunkText Txy`. -/
def xyC0 : Str := List.replicate 600 'x'

/-- Content of the second chunk of `chunkText Txy`. -/
def xyC1 : Str := List.replicate 200 'x' ++ '\n' :: xyStuff

/-- Tail-recursive character-list equality (kernel-evaluation friendly for
long lists, unlike the derived structural `DecidableEq`). -/
def eqStr : Str → Str → Bool
  | [], [] => true
  | a :: as, b :: bs => if a = b then eqStr as bs else false
  | _, _ => false

/-- Pointwise `eqStr` on lists of strings. -/
def eqStrs : List Str → List Str → Bool
  | [], [] => true
  | a :: as, b :: bs => if eqStr a b then eqStrs as bs else false
  | _, _ => false

/-- The non-whitespace characters of a string, in order. -/
def solidChars (s : Str) : Str := s.filter (fun c => !(isWsChar c))

/-- Re-attach the separator to every part but the first and concatenate
(what `splitBySeparator` flattens to before filtering). -/
def reattachFlatten (sep : Str) : List Str → Str
  | [] => []
  | p :: ps => p ++ (ps.map (fun q => sep ++ q)).flatten

def isMetadataEvt : StreamEvent → Bool
  | .metadata _ => true
  | _ => false

def isTerminalEvt : StreamEvent → Bool
  | .done => true
  | .errorEvt => true
  | _ => false

def isAssistantWriteEvt : StreamEvent → Bool
  | .assistantWrite _ _ => true
  | _ => false

/-- The fragment carried by a chunk event, if any. -/
def chunkPayload : StreamEvent → Option Str
  | .chunk t => some t
  | _ => none

def txtHello : Str := ("hello world").toList

def c9src1 : NumberedSource :=
  ⟨1, ("d1").toList, ("doc1.pdf").toList, ("content one").toList, (82 : ℚ) / 100⟩

def c9src2 : NumberedSource :=
  ⟨2, ("d2").toList, ("doc2.pdf").toList, ("content two").toList, (61 : ℚ) / 100⟩

/-- No two adjacent space-or-tab characters (the shape that step 2's
collapsing guarantees and that makes a second collapse a no-op). -/
def noAdjST : Str → Bool
  | c :: d :: rest => (!(isSpaceTab c && isSpaceTab d)) && noAdjST (d :: rest)
  | _ => true

/-- Does the text contain a citation marker `[<digits>]` anywhere?  `false`
exactly when the global split scanner finds nothing to split on. -/
def hasMarker : Str → Bool
  | [] => false
  | c :: rest => (markerAt (c :: rest)).isSome || hasMarker rest

/-! ## Basic facts about `trim` -/

theorem dropWhile_idem (p : Char → Bool) (s : Str) :
    (s.dropWhile p).dropWhile p = s.dropWhile p := by
  induction s with
  | nil => rfl
  | cons c rest ih =>
    by_cases h : p c
    · simp [List.dropWhile_cons, h, ih]
    · simp [List.dropWhile_cons, h]

theorem ltrim_idem (s : Str) : ltrim (ltrim s) = ltrim s :=
  dropWhile_idem _ s

theorem rtrim_idem (s : Str) : rtrim (rtrim s) = rtrim s := by
  simp [rtrim, dropWhile_idem]

theorem head?_ltrim_not_ws (s : Str) (x : Char) (h : (ltrim s).head? = some x) :
    isWsChar x = false := by
  rcases he : ltrim s with _ | ⟨c, t⟩
  · rw [he] at h; exact absurd h (by simp)
  · have hc : (s.dropWhile isWsChar).head (by rw [ltrim] at he; simp [he]) = c := by
      simp [ltrim] at he; simp [he]
    have := List.head_dropWhile_not isWsChar s (by rw [ltrim] at he; simp [he])
    rw [hc] at this
    rw [he] at h
    simp at h
    rwa [h] at this

/-- `s` is its right trim followed by whitespace. -/
theorem rtrim_decomp (s : Str) :
    ∃ w, s = rtrim s ++ w ∧ ∀ c ∈ w, isWsChar c = true := by
  refine ⟨(s.reverse.takeWhile isWsChar).reverse, ?_, ?_⟩
  · have h := congrArg List.reverse
      (List.takeWhile_append_dropWhile (p := isWsChar) (l := s.reverse))
    simp only [List.reverse_append, List.reverse_reverse] at h
    rw [rtrim]
    exact h.symm
  · intro c hc
    exact List.mem_takeWhile_imp (by simpa using hc)

/-- `s` is whitespace followed by its left trim. -/
theorem ltrim_decomp (s : Str) :
    ∃ w, s = w ++ ltrim s ∧ ∀ c ∈ w, isWsChar c = true := by
  refine ⟨s.takeWhile isWsChar, ?_, ?_⟩
  · exact (List.takeWhile_append_dropWhile (p := isWsChar) (l := s)).symm
  · intro c hc
    exact List.mem_takeWhile_imp hc

theorem ltrim_eq_self_of_head (s : Str)
    (h : ∀ x, s.head? = some x → isWsChar x = false) : ltrim s = s := by
  cases s with
  | nil => rfl
  | cons c rest => simp [ltrim, List.dropWhile_cons, h c rfl]

theorem head?_trim_not_ws (s : Str) (x : Char) (h : (trim s).head? = some x) :
    isWsChar x = false := by
  obtain ⟨w, hw, -⟩ := rtrim_decomp (ltrim s)
  apply head?_ltrim_not_ws s x
  rw [hw, List.head?_append]
  rw [trim] at h
  simp [h]

theorem getLast?_rtrim_not_ws (s : Str) (x : Char) (h : (rtrim s).getLast? = some x) :
    isWsChar x = false := by
  rw [rtrim, List.getLast?_reverse] at h
  exact head?_ltrim_not_ws s.reverse x h

theorem getLast?_trim_not_ws (s : Str) (x : Char) (h : (trim s).getLast? = some x) :
    isWsChar x = false :=
  getLast?_rtrim_not_ws (ltrim s) x h

theorem trim_trim (s : Str) : trim (trim s) = trim s := by
  rw [trim, trim]
  rw [ltrim_eq_self_of_head (rtrim (ltrim s)) (fun x hx => ?_), rtrim_idem]
  obtain ⟨w, hw, -⟩ := rtrim_decomp (ltrim s)
  apply head?_ltrim_not_ws s x
  rw [hw, List.head?_append, hx]
  rfl

/-- The preprocessed text is already trimmed. -/
theorem trim_preprocessText (t : Str) : trim (preprocessText t) = preprocessText t := by
  rw [preprocessText, trim_trim]

theorem trim_eq_nil_iff (s : Str) : trim s = [] ↔ ∀ c ∈ s, isWsChar c = true := by
  constructor
  · intro h c hc
    obtain ⟨w1, hw1, h1⟩ := ltrim_decomp s
    obtain ⟨w2, hw2, h2⟩ := rtrim_decomp (ltrim s)
    rw [trim] at h
    rw [h, List.nil_append] at hw2
    rw [hw1, hw2] at hc
    rcases List.mem_append.mp hc with h' | h'
    · exact h1 c h'
    · exact h2 c h'
  · intro h
    have : ltrim s = [] ∨ ∀ c ∈ ltrim s, isWsChar c = true := by
      right; intro c hc
      obtain ⟨w1, hw1, -⟩ := ltrim_decomp s
      exact h c (by rw [hw1]; exact List.mem_append_right _ hc)
    rcases this with h' | h'
    · rw [trim, h']; rfl
    · rw [trim, rtrim]
      have : (ltrim s).reverse.dropWhile isWsChar = [] :=
        List.dropWhile_eq_nil_iff.mpr (fun x hx => h' x (by simpa using hx))
      rw [this]; rfl

theorem trim_ne_nil_of_mem (s : Str) (c : Char) (hc : c ∈ s)
    (hws : isWsChar c = false) : trim s ≠ [] := by
  intro h
  have := (trim_eq_nil_iff s).mp h c hc
  rw [hws] at this
  exact absurd this (by simp)

theorem ltrim_length_le (s : Str) : (ltrim s).length ≤ s.length :=
  (List.dropWhile_sublist _).length_le

theorem rtrim_length_le (s : Str) : (rtrim s).length ≤ s.length := by
  rw [rtrim, List.length_reverse]
  exact le_trans (List.dropWhile_sublist _).length_le (by simp)

theorem trim_length_le (s : Str) : (trim s).length ≤ s.length :=
  le_trans (rtrim_length_le _) (ltrim_length_le _)

/-! ## Shape lemmas for `chunkText` -/

theorem recursiveSplitF_small (C fuel : Nat) (text : Str) (i : Nat)
    (hfuel : 0 < fuel) (hlen : text.length ≤ C) :
    recursiveSplitF C fuel text i = [text] := by
  cases fuel with
  | zero => exact absurd hfuel (by simp)
  | succ f => rw [recursiveSplitF, if_pos hlen]

theorem recursiveSplit_small (C : Nat) (text : Str) (hlen : text.length ≤ C) :
    recursiveSplit C text = [text] :=
  recursiveSplitF_small C _ text 0 (by positivity) hlen

theorem mergeChunks_single (C O : Nat) (p : Str) (hp : trim p = p) (hne : p ≠ []) :
    mergeChunks [p] C O = [p] := by
  have h0 : ¬ (C < ([] : Str).length + (trim p).length + 1 ∧ 0 < ([] : Str).length) := by
    simp
  rw [mergeChunks, mergeLoop]
  rw [if_neg (by rw [hp]; exact hne), if_neg h0]
  simp only [List.isEmpty_nil, if_pos]
  rw [mergeLoop]
  simp [hp, hne]

theorem indexOfAux_self (pat s : Str) (i : Nat) (h : pat.isPrefixOf s = true) :
    indexOfAux pat s i = some i := by
  cases s with
  | nil => rw [indexOfAux, if_pos h]
  | cons c r => rw [indexOfAux, if_pos h]

theorem buildChunks_index (pre : Str) (O : Nat) :
    ∀ (l : List Str) (i0 : Nat) (pos : Int) (i : Nat) (ch : TextChunk),
      (buildChunks pre O l i0 pos)[i]? = some ch → ch.index = i0 + i := by
  intro l
  induction l with
  | nil => intro i0 pos i ch h; simp [buildChunks] at h
  | cons c rest ih =>
    intro i0 pos i ch h
    simp only [buildChunks] at h
    cases i with
    | zero =>
      rw [List.getElem?_cons_zero] at h
      cases h
      rfl
    | succ i' =>
      rw [List.getElem?_cons_succ] at h
      have := ih (i0 + 1) _ i' ch h
      omega

theorem buildChunks_single (pre : Str) (O : Nat) :
    buildChunks pre O [pre] 0 0 = [TextChunk.mk pre 0 0 (pre.length : Int)] := by
  have hpre : (List.take 50 pre).isPrefixOf pre = true :=
    List.isPrefixOf_iff_prefix.mpr (List.take_prefix 50 pre)
  have hidx : indexOfFrom pre (List.take 50 pre) 0 = some 0 := by
    rw [indexOfFrom]
    simp only [Int.toNat_zero, List.drop_zero]
    exact indexOfAux_self _ _ _ hpre
  simp only [buildChunks, hidx]
  norm_num

/-- C8: for every input whose preprocessed form is empty, `chunkText` returns
zero chunks; for a nonempty preprocessed form of length at most `C = 1000` it
returns exactly one chunk whose content is the preprocessed text, at ordinal
0 (offsets 0 to the length); and the `N` returned chunks always carry ordinal
indices exactly `0..N-1` (chunk number `i` has index `i`), with no gaps or
duplicates. -/
theorem chunkText_output_shape (T : Str) :
    (preprocessText T = [] → chunkText T 1000 200 = []) ∧
    (preprocessText T ≠ [] → (preprocessText T).length ≤ 1000 →
      chunkText T 1000 200 =
        [TextChunk.mk (preprocessText T) 0 0 ((preprocessText T).length : Int)]) ∧
    (∀ (i : Nat) (ch : TextChunk),
      (chunkText T 1000 200)[i]? = some ch → ch.index = i) := by
  refine ⟨?_, ?_, ?_⟩
  · intro h
    rw [chunkText]
    simp [h]
  · intro hne hlen
    rw [chunkText]
    simp only [List.isEmpty_iff, if_neg hne]
    rw [recursiveSplit_small 1000 _ hlen,
      mergeChunks_single 1000 200 _ (trim_preprocessText T) hne,
      buildChunks_single]
  · intro i ch h
    rw [chunkText] at h
    by_cases hpre : (preprocessText T).isEmpty
    · rw [if_pos hpre] at h; simp at h
    · rw [if_neg hpre] at h
      simpa using buildChunks_index _ _ _ 0 _ i ch h

/-- Witness for C8 at the concrete input `"hi"`. -/
theorem chunkText_output_shape_witness :
    chunkText (("hi").toList) 1000 200 =
      [TextChunk.mk (preprocessText (("hi").toList)) 0 0
        ((preprocessText (("hi").toList)).length : Int)] :=
  (chunkText_output_shape (("hi").toList)).2.1 (by decide) (by decide)

/-! ## Invariants of merged chunks (C10) -/

theorem trim_has_solid_char (y : Str) (h : trim y ≠ []) :
    ∃ c ∈ trim y, isWsChar c = false := by
  rcases he : trim y with _ | ⟨c, t⟩
  · exact absurd he h
  · refine ⟨c, by simp, ?_⟩
    have : (trim y).head? = some c := by rw [he]; rfl
    exact head?_trim_not_ws y c this

theorem mergeLoop_mem (C O : Nat) :
    ∀ (l : List Str) (cur : Str),
      (cur = [] ∨ ∃ c ∈ cur, isWsChar c = false) →
      ∀ s ∈ mergeLoop C O l cur, (∃ y, s = trim y) ∧ s ≠ [] := by
  intro l
  induction l with
  | nil =>
    intro cur hcur s hs
    rw [mergeLoop] at hs
    by_cases h : trim cur ≠ []
    · rw [if_pos h] at hs
      rcases List.mem_cons.mp hs with hs | hs
      · subst hs; exact ⟨⟨cur, rfl⟩, h⟩
      · simp at hs
    · rw [if_neg h] at hs; simp at hs
  | cons chunk rest ih =>
    intro cur hcur s hs
    rw [mergeLoop] at hs
    by_cases ht : trim chunk = []
    · rw [if_pos ht] at hs
      exact ih cur hcur s hs
    · rw [if_neg ht] at hs
      obtain ⟨ct, hctmem, hctws⟩ := trim_has_solid_char chunk ht
      by_cases hov : C < cur.length + (trim chunk).length + 1 ∧ 0 < cur.length
      · rw [if_pos hov] at hs
        rcases List.mem_cons.mp hs with hs | hs
        · subst hs
          refine ⟨⟨cur, rfl⟩, ?_⟩
          rcases hcur with h | ⟨c, hc, hcw⟩
          · subst h; exact absurd hov.2 (by simp)
          · exact trim_ne_nil_of_mem cur c hc hcw
        · by_cases hO : 0 < O ∧ O < cur.length
          · rw [if_pos hO] at hs
            refine ih _ (Or.inr ⟨ct, ?_, hctws⟩) s hs
            exact List.mem_append_right _ (List.mem_cons_of_mem _ hctmem)
          · rw [if_neg hO] at hs
            exact ih _ (Or.inr ⟨ct, hctmem, hctws⟩) s hs
      · rw [if_neg hov] at hs
        by_cases hce : cur.isEmpty
        · rw [if_pos hce] at hs
          exact ih _ (Or.inr ⟨ct, hctmem, hctws⟩) s hs
        · rw [if_neg hce] at hs
          refine ih _ (Or.inr ⟨ct, ?_, hctws⟩) s hs
          exact List.mem_append_right _ (List.mem_cons_of_mem _ hctmem)

theorem mergeChunks_mem (l : List Str) (C O : Nat) (s : Str)
    (hs : s ∈ mergeChunks l C O) : (∃ y, s = trim y) ∧ s ≠ [] :=
  mergeLoop_mem C O l [] (Or.inl rfl) s hs

theorem buildChunks_mem (pre : Str) (O : Nat) :
    ∀ (l : List Str) (i0 : Nat) (pos : Int) (ch : TextChunk),
      ch ∈ buildChunks pre O l i0 pos →
      ch.content ∈ l ∧ ch.endChar = ch.startChar + ch.content.length := by
  intro l
  induction l with
  | nil => intro i0 pos ch h; simp [buildChunks] at h
  | cons c rest ih =>
    intro i0 pos ch h
    simp only [buildChunks] at h
    rcases List.mem_cons.mp h with h | h
    · subst h
      exact ⟨List.mem_cons_self _ _, rfl⟩
    · obtain ⟨h1, h2⟩ := ih _ _ ch h
      exact ⟨List.mem_cons_of_mem _ h1, h2⟩

/-- C10 (implicit invariant): every chunk returned by `chunkText` (at the
default options) has nonempty content with no leading or trailing whitespace
character, and its offsets satisfy `endChar = startChar + content.length`;
no caller ever receives a blank or whitespace-padded chunk to embed. -/
theorem chunkText_chunk_invariants (T : Str) (ch : TextChunk)
    (h : ch ∈ chunkText T 1000 200) :
    ch.content ≠ [] ∧
    (∀ x, ch.content.head? = some x → isWsChar x = false) ∧
    (∀ x, ch.content.getLast? = some x → isWsChar x = false) ∧
    ch.endChar = ch.startChar + ch.content.length := by
  rw [chunkText] at h
  by_cases hpre : (preprocessText T).isEmpty
  · rw [if_pos hpre] at h; simp at h
  · rw [if_neg hpre] at h
    obtain ⟨hmem, hpos⟩ := buildChunks_mem _ _ _ _ _ ch h
    obtain ⟨⟨y, hy⟩, hne⟩ := mergeChunks_mem _ _ _ _ hmem
    refine ⟨hne, ?_, ?_, hpos⟩
    · intro x hx
      rw [hy] at hx
      exact head?_trim_not_ws y x hx
    · intro x hx
      rw [hy] at hx
      exact getLast?_trim_not_ws y x hx

/-- Witness for C10 at the concrete input `"hi"` and its single chunk. -/
theorem chunkText_chunk_invariants_witness :
    (TextChunk.mk (("hi").toList) 0 0 2) ∈ chunkText (("hi").toList) 1000 200 ∧
    (TextChunk.mk (("hi").toList) 0 0 2).content ≠ [] :=
  ⟨by decide, (chunkText_chunk_invariants (("hi").toList) _ (by decide)).1⟩

/-! ## Chunk length bounds (C2) -/

theorem lastIdxOfAux_lt (c : Char) :
    ∀ (l : Str) (i : Nat) (best : Option Nat),
      (∀ j, best = some j → j < i) →
      ∀ j, lastIdxOfAux c l i best = some j → j < i + l.length := by
  intro l
  induction l with
  | nil =>
    intro i best hbest j h
    rw [lastIdxOfAux] at h
    simpa using hbest j h
  | cons x r ih =>
    intro i best hbest j h
    rw [lastIdxOfAux] at h
    have := ih (i + 1) _ (fun j' hj' => by
      by_cases hx : x = c
      · rw [if_pos hx] at hj'; cases hj'; omega
      · rw [if_neg hx] at hj'; have := hbest j' hj'; omega) j h
    simpa [Nat.add_assoc, Nat.add_comm 1 r.length] using this

theorem lastIdxOf_lt (c : Char) (l : Str) (j : Nat) (h : lastIdxOf c l = some j) :
    j < l.length := by
  have := lastIdxOfAux_lt c l 0 none (by simp) j h
  simpa using this

theorem lastIndexOfCharLe_le (c : Char) (t : Str) (e j : Nat)
    (h : lastIndexOfCharLe c t e = some j) : j ≤ e := by
  have := lastIdxOf_lt c _ _ h
  have hle : (t.take (e + 1)).length ≤ e + 1 := by simp
  omega

theorem forceSplitF_length_le (C : Nat) :
    ∀ (fuel : Nat) (t : Str), ∀ p ∈ forceSplitF C fuel t, p.length ≤ C := by
  intro fuel
  induction fuel with
  | zero =>
    intro t p hp
    cases t <;> simp [forceSplitF] at hp
  | succ f ih =>
    intro t p hp
    cases t with
    | nil => simp [forceSplitF] at hp
    | cons c rest =>
      rw [forceSplitF] at hp
      rcases List.mem_cons.mp hp with hp | hp
      · subst hp
        set t := c :: rest with ht
        set e := min C t.length with he
        have hEC : e ≤ C := by rw [he]; exact Nat.min_le_left _ _
        have hbound : ∀ e', e' ≤ C → (trim (t.take e')).length ≤ C := by
          intro e' he'
          calc (trim (t.take e')).length ≤ (t.take e').length := trim_length_le _
            _ ≤ e' := by simp
            _ ≤ C := he'
        by_cases hlt : e < t.length
        · rw [if_pos hlt]
          rcases hls : lastIndexOfCharLe ' ' t e with _ | ls
          · simpa [hls] using hbound e hEC
          · have hlsle : ls ≤ e := lastIndexOfCharLe_le ' ' t e ls hls
            by_cases h2 : C < 2 * ls
            · simpa [hls, h2] using hbound ls (le_trans hlsle hEC)
            · simpa [hls, h2] using hbound e hEC
        · rw [if_neg hlt]
          exact hbound e hEC
      · exact ih _ p hp

theorem recursiveSplitF_length_le (C : Nat) :
    ∀ (fuel : Nat) (text : Str) (i : Nat),
      ∀ p ∈ recursiveSplitF C fuel text i, p.length ≤ C := by
  intro fuel
  induction fuel with
  | zero => intro text i p hp; simp [recursiveSplitF] at hp
  | succ f ih =>
    intro text i p hp
    rw [recursiveSplitF] at hp
    by_cases hsmall : text.length ≤ C
    · rw [if_pos hsmall] at hp
      rcases List.mem_cons.mp hp with hp | hp
      · subst hp; exact hsmall
      · simp at hp
    · rw [if_neg hsmall] at hp
      by_cases hsep : SEPARATORS.length ≤ i
      · rw [if_pos hsep] at hp
        exact forceSplitF_length_le C _ _ p (List.mem_of_mem_filter hp)
      · rw [if_neg hsep] at hp
        by_cases h1 : (splitBySeparator text (SEPARATORS.getD i [])).length = 1
        · rw [if_pos h1] at hp
          exact ih text (i + 1) p hp
        · rw [if_neg h1] at hp
          obtain ⟨l, hl, hpl⟩ := List.mem_flatten.mp hp
          obtain ⟨q, hq, hfq⟩ := List.mem_map.mp hl
          by_cases hql : C < q.length
          · rw [if_pos hql] at hfq
            exact ih q (i + 1) p (hfq ▸ hpl)
          · rw [if_neg hql] at hfq
            rw [← hfq] at hpl
            rcases List.mem_cons.mp hpl with hpl | hpl
            · subst hpl; omega
            · simp at hpl

theorem recursiveSplit_length_le (C : Nat) (text : Str) :
    ∀ p ∈ recursiveSplit C text, p.length ≤ C :=
  recursiveSplitF_length_le C _ text 0

theorem overlapLoop_ge (searchStart textLen targetOverlap : Nat) (searchText : Str) :
    ∀ (es : List Str) (best : Nat),
      best ≤ overlapLoop searchStart textLen targetOverlap searchText es best := by
  intro es
  induction es with
  | nil => intro best; rw [overlapLoop]
  | cons e rest ih =>
    intro best
    rw [overlapLoop]
    rcases indexOfStr searchText e with _ | pos
    · exact ih best
    · dsimp only
      split
      · rename_i hc
        simp only [Bool.and_eq_true, decide_eq_true_eq] at hc
        exact le_of_lt hc.1
      · exact ih best

theorem findOverlapStart_ge (text : Str) (O : Nat) :
    text.length - O ≤ findOverlapStart text O :=
  overlapLoop_ge _ _ _ _ sentenceEnds _

theorem mergeLoop_length_le (C O : Nat) :
    ∀ (l : List Str) (cur : Str),
      (∀ p ∈ l, p.length ≤ C) → cur.length ≤ C + O + 1 →
      ∀ s ∈ mergeLoop C O l cur, s.length ≤ C + O + 1 := by
  intro l
  induction l with
  | nil =>
    intro cur hl hcur s hs
    rw [mergeLoop] at hs
    by_cases h : trim cur ≠ []
    · rw [if_pos h] at hs
      rcases List.mem_cons.mp hs with hs | hs
      · subst hs; exact le_trans (trim_length_le _) hcur
      · simp at hs
    · rw [if_neg h] at hs; simp at hs
  | cons chunk rest ih =>
    intro cur hl hcur s hs
    have hlrest : ∀ p ∈ rest, p.length ≤ C := fun p hp => hl p (List.mem_cons_of_mem _ hp)
    have htC : (trim chunk).length ≤ C :=
      le_trans (trim_length_le _) (hl chunk (List.mem_cons_self _ _))
    rw [mergeLoop] at hs
    by_cases ht : trim chunk = []
    · rw [if_pos ht] at hs
      exact ih cur hlrest hcur s hs
    · rw [if_neg ht] at hs
      by_cases hov : C < cur.length + (trim chunk).length + 1 ∧ 0 < cur.length
      · rw [if_pos hov] at hs
        rcases List.mem_cons.mp hs with hs | hs
        · subst hs; exact le_trans (trim_length_le _) hcur
        · by_cases hO : 0 < O ∧ O < cur.length
          · rw [if_pos hO] at hs
            refine ih _ hlrest ?_ s hs
            have hk : cur.length - O ≤ findOverlapStart cur O := findOverlapStart_ge cur O
            have hlen : (cur.drop (findOverlapStart cur O) ++ '\n' :: trim chunk).length =
                cur.length - findOverlapStart cur O + ((trim chunk).length + 1) := by
              simp
            omega
          · rw [if_neg hO] at hs
            exact ih _ hlrest (by omega) s hs
      · rw [if_neg hov] at hs
        by_cases hce : cur.isEmpty
        · rw [if_pos hce] at hs
          exact ih _ hlrest (by omega) s hs
        · rw [if_neg hce] at hs
          have hcur0 : 0 < cur.length := by
            cases cur
            · simp at hce
            · simp
          have hsum : cur.length + (trim chunk).length + 1 ≤ C := by
            rcases Nat.lt_or_ge C (cur.length + (trim chunk).length + 1) with h | h
            · exact absurd ⟨h, hcur0⟩ hov
            · exact h
          refine ih _ hlrest ?_ s hs
          have hlen : (cur ++ '\n' :: trim chunk).length =
              cur.length + ((trim chunk).length + 1) := by simp
          omega

/-- C2 (amended): with the default options (`C = 1000`, `O = 200`), every
chunk returned by `chunkText` has content length at most `C + O + 1 = 1201`:
the merge loop can push a chunk consisting of the overlap tail (at most `O`
characters), a joining newline, and one more piece of at most `C` characters.
The claimed bound `C` itself is violated (see the counterexample). -/
theorem chunkText_length_bound (T : Str) (ch : TextChunk)
    (h : ch ∈ chunkText T 1000 200) : ch.content.length ≤ 1201 := by
  rw [chunkText] at h
  by_cases hpre : (preprocessText T).isEmpty
  · rw [if_pos hpre] at h; simp at h
  · rw [if_neg hpre] at h
    obtain ⟨hmem, -⟩ := buildChunks_mem _ _ _ _ _ ch h
    exact mergeLoop_length_le 1000 200 _ []
      (recursiveSplit_length_le 1000 _) (by simp) _ hmem

/-- Witness for the amended C2 at the concrete input `"hi"`. -/
theorem chunkText_length_bound_witness :
    (TextChunk.mk (("hi").toList) 0 0 2).content.length ≤ 1201 :=
  chunkText_length_bound (("hi").toList) _ (by decide)

/-! ## A concrete input on which the C1/C2 claims fail

`Txy` is 600 `x`s, a blank line, and a 997-character single-space-separated
run of `y`s.  Preprocessing leaves it unchanged; the splitter cuts at the
paragraph break; the merge loop closes the first chunk and seeds the second
with the 200-character overlap tail plus a joining newline, producing a
second chunk of 1198 characters. -/

theorem eqStr_iff_eq : ∀ a b : Str, eqStr a b = true ↔ a = b := by
  intro a
  induction a with
  | nil => intro b; cases b <;> simp [eqStr]
  | cons x as ih =>
    intro b
    cases b with
    | nil => simp [eqStr]
    | cons y bs =>
      by_cases hxy : x = y
      · simp [eqStr, hxy, ih bs]
      · simp [eqStr, hxy]

theorem eqStrs_iff_eq : ∀ a b : List Str, eqStrs a b = true ↔ a = b := by
  intro a
  induction a with
  | nil => intro b; cases b <;> simp [eqStrs]
  | cons x as ih =>
    intro b
    cases b with
    | nil => simp [eqStrs]
    | cons y bs =>
      by_cases hxy : eqStr x y = true
      · rw [eqStrs, if_pos hxy]
        rw [eqStr_iff_eq] at hxy
        simp [hxy, ih bs]
      · rw [eqStrs, if_neg (by simpa using hxy)]
        rw [eqStr_iff_eq] at hxy
        simp [hxy]

set_option maxRecDepth 20000 in
theorem preprocess_Txy_eqStr : eqStr (preprocessText Txy) Txy = true := by decide

theorem preprocess_Txy : preprocessText Txy = Txy :=
  (eqStr_iff_eq _ _).mp preprocess_Txy_eqStr

set_option maxRecDepth 20000 in
theorem chunkText_Txy_eqStrs :
    eqStrs ((chunkText Txy 1000 200).map TextChunk.content) [xyC0, xyC1] = true := by
  decide

theorem chunkText_Txy_contents :
    (chunkText Txy 1000 200).map TextChunk.content = [xyC0, xyC1] :=
  (eqStrs_iff_eq _ _).mp chunkText_Txy_eqStrs

/-- C2 counterexample: on `Txy` (with the default `C = 1000`, `O = 200`)
`chunkText` returns a chunk of 1198 characters that contains spaces (so it is
not a single unsplittable space-free token): the claim "every chunk has
content length at most `C`, except an unsplittable space-free token" is
false. -/
theorem chunk_size_bound_counterexample :
    ¬ (∀ ch ∈ chunkText Txy 1000 200, ch.content.length ≤ 1000 ∨ ' ' ∉ ch.content) := by
  intro h
  have hx : xyC1 ∈ (chunkText Txy 1000 200).map TextChunk.content := by
    rw [chunkText_Txy_contents]
    simp
  obtain ⟨ch, hch, hcc⟩ := List.mem_map.mp hx
  rcases h ch hch with h1 | h1
  · rw [hcc] at h1
    exact absurd h1 (by decide)
  · rw [hcc] at h1
    exact h1 (by decide)

/-- C1 counterexample: on `Txy`, `chunkText` (with defaults) returns the two
chunks `xyC0` and `xyC1`, and no removal of an overlap prefix of the second
chunk (a prefix repeating a suffix of the first chunk) makes the chunk
contents concatenate to the preprocessed text: the merge loop replaced the
paragraph separator with a joining newline, so reconstruction is impossible
and the lossless-reconstruction claim is false. -/
theorem chunk_reconstruction_counterexample :
    (chunkText Txy 1000 200).map TextChunk.content = [xyC0, xyC1] ∧
    ¬ ∃ k : Nat, (List.take k xyC1).IsSuffix xyC0 ∧
        xyC0 ++ List.drop k xyC1 = preprocessText Txy := by
  refine ⟨chunkText_Txy_contents, ?_⟩
  rintro ⟨k, hsuf, heq⟩
  have l0 : xyC0.length = 600 := by decide
  have l1 : xyC1.length = 1198 := by decide
  have lp : (preprocessText Txy).length = 1599 := by rw [preprocess_Txy]; decide
  have hlen := congrArg List.length heq
  rw [List.length_append, List.length_drop, l0, l1, lp] at hlen
  have hk : k = 199 := by omega
  subst hk
  rw [preprocess_Txy] at heq
  have hfalse : eqStr (xyC0 ++ List.drop 199 xyC1) Txy = false := by decide
  have htrue : eqStr (xyC0 ++ List.drop 199 xyC1) Txy = true := (eqStr_iff_eq _ _).mpr heq
  rw [hfalse] at htrue
  exact absurd htrue (by simp)

/-! ## Non-whitespace character preservation (amended C1) -/

theorem solidChars_append (a b : Str) :
    solidChars (a ++ b) = solidChars a ++ solidChars b := by
  simp [solidChars]

theorem solidChars_all_ws (w : Str) (h : ∀ c ∈ w, isWsChar c = true) :
    solidChars w = [] := by
  rw [solidChars, List.filter_eq_nil_iff]
  intro c hc
  simp [h c hc]

theorem solidChars_trim (s : Str) : solidChars (trim s) = solidChars s := by
  obtain ⟨w1, hw1, h1⟩ := ltrim_decomp s
  obtain ⟨w2, hw2, h2⟩ := rtrim_decomp (ltrim s)
  conv_rhs => rw [hw1, hw2]
  rw [trim]
  rw [solidChars_append, solidChars_append, solidChars_all_ws w1 h1,
    solidChars_all_ws w2 h2]
  simp

theorem solidChars_nl_cons (t : Str) : solidChars ('\n' :: t) = solidChars t := by
  simp [solidChars, List.filter_cons, isWsChar]

theorem solidChars_flatten_filterTrim (L : List Str) :
    solidChars ((L.filter (fun p => trim p ≠ [])).flatten) = solidChars L.flatten := by
  induction L with
  | nil => rfl
  | cons q L' ih =>
    by_cases hq : trim q ≠ []
    · rw [List.filter_cons_of_pos (by simpa using hq)]
      simp only [List.flatten_cons, solidChars_append, ih]
    · rw [List.filter_cons_of_neg (by simpa using hq)]
      have hq' : solidChars q = [] := by
        push_neg at hq
        exact solidChars_all_ws q ((trim_eq_nil_iff q).mp hq)
      simp only [List.flatten_cons, solidChars_append, ih, hq', List.nil_append]

/-- Generalizing the accumulator of `splitOnStrAux`. -/
theorem splitOnStrAux_acc (sep : Str) :
    ∀ (fuel : Nat) (s part : Str) (acc1 acc2 : List Str),
      splitOnStrAux sep fuel s part (acc1 ++ acc2) =
        acc2.reverse ++ splitOnStrAux sep fuel s part acc1 := by
  intro fuel
  induction fuel with
  | zero =>
    intro s part acc1 acc2
    cases s <;> simp [splitOnStrAux]
  | succ f ih =>
    intro s part acc1 acc2
    cases s with
    | nil => simp [splitOnStrAux]
    | cons c rest =>
      rw [splitOnStrAux, splitOnStrAux]
      by_cases hpre : sep.isPrefixOf (c :: rest) = true
      · rw [if_pos hpre, if_pos hpre]
        have : part.reverse :: (acc1 ++ acc2) = (part.reverse :: acc1) ++ acc2 := by simp
        rw [this, ih]
      · rw [if_neg hpre, if_neg hpre, ih]

theorem splitOnStrAux_ne_nil (sep : Str) :
    ∀ (fuel : Nat) (s part : Str) (acc : List Str),
      splitOnStrAux sep fuel s part acc ≠ [] := by
  intro fuel
  induction fuel with
  | zero => intro s part acc; cases s <;> simp [splitOnStrAux]
  | succ f ih =>
    intro s part acc
    cases s with
    | nil => simp [splitOnStrAux]
    | cons c rest =>
      rw [splitOnStrAux]
      by_cases hpre : sep.isPrefixOf (c :: rest) = true
      · rw [if_pos hpre]; exact ih _ _ _
      · rw [if_neg hpre]; exact ih _ _ _

theorem reattachFlatten_cons_of_ne (sep : Str) (L : List Str) (hL : L ≠ []) :
    (L.map (fun q => sep ++ q)).flatten = sep ++ reattachFlatten sep L := by
  cases L with
  | nil => exact absurd rfl hL
  | cons p ps => simp [reattachFlatten]

theorem splitOnStrAux_reattach (sep : Str) (hsep : sep ≠ []) :
    ∀ (fuel : Nat) (s part : Str), s.length ≤ fuel →
      reattachFlatten sep (splitOnStrAux sep fuel s part []) = part.reverse ++ s := by
  intro fuel
  induction fuel with
  | zero =>
    intro s part hs
    have : s = [] := List.length_eq_zero.mp (Nat.le_zero.mp hs)
    subst this
    simp [splitOnStrAux, reattachFlatten]
  | succ f ih =>
    intro s part hs
    cases s with
    | nil => simp [splitOnStrAux, reattachFlatten]
    | cons c rest =>
      rw [splitOnStrAux]
      by_cases hpre : sep.isPrefixOf (c :: rest) = true
      · rw [if_pos hpre]
        have hacc : splitOnStrAux sep f (rest.drop (sep.length - 1)) [] [part.reverse] =
            [part.reverse] ++ splitOnStrAux sep f (rest.drop (sep.length - 1)) [] [] := by
          have := splitOnStrAux_acc sep f (rest.drop (sep.length - 1)) [] [] [part.reverse]
          simpa using this
        rw [hacc, List.singleton_append]
        have hne := splitOnStrAux_ne_nil sep f (rest.drop (sep.length - 1)) [] []
        rw [reattachFlatten]
        rw [reattachFlatten_cons_of_ne sep _ hne]
        have hdrop : rest.drop (sep.length - 1) = (c :: rest).drop sep.length := by
          cases sep with
          | nil => exact absurd rfl hsep
          | cons a as => simp
        have hrest : (rest.drop (sep.length - 1)).length ≤ f := by
          have h1 : rest.length ≤ f := by simpa using hs
          have : (rest.drop (sep.length - 1)).length ≤ rest.length := by simp
          omega
        rw [ih _ [] hrest]
        simp only [List.reverse_nil, List.nil_append]
        have hpre' : sep <+: (c :: rest) := List.isPrefixOf_iff_prefix.mp hpre
        obtain ⟨t, ht⟩ := hpre'
        rw [hdrop, ← ht, List.drop_left]
      · rw [if_neg hpre]
        have hrest : rest.length ≤ f := by simpa using hs
        rw [ih rest (c :: part) hrest]
        simp

theorem splitOnStr_reattach (sep : Str) (hsep : sep ≠ []) (s : Str) :
    reattachFlatten sep (splitOnStr sep s) = s := by
  rw [splitOnStr]
  simpa using splitOnStrAux_reattach sep hsep s.length s [] (le_refl _)

theorem splitOnStr_ne_nil (sep s : Str) : splitOnStr sep s ≠ [] :=
  splitOnStrAux_ne_nil sep s.length s [] []

theorem flatten_reattach_parts (sep p : Str) (ps : List Str) :
    (p :: ps.map (fun q => sep ++ q)).flatten = reattachFlatten sep (p :: ps) := by
  simp [reattachFlatten]

theorem solidChars_splitBySeparator (s sep : Str) (hsep : sep ≠ []) :
    solidChars ((splitBySeparator s sep).flatten) = solidChars s := by
  rw [splitBySeparator, if_neg (by simpa using hsep)]
  rcases hsplit : splitOnStr sep s with _ | ⟨p, ps⟩
  · exact absurd hsplit (splitOnStr_ne_nil sep s)
  · rw [solidChars_flatten_filterTrim, flatten_reattach_parts, ← hsplit,
      splitOnStr_reattach sep hsep s]

theorem sublist_sum_le (l₁ l₂ : List Nat) (h : l₁.Sublist l₂) : l₁.sum ≤ l₂.sum := by
  induction h with
  | slnil => exact le_refl _
  | cons a h ih => simpa using le_trans ih (Nat.le_add_left _ _)
  | cons₂ a h ih => simpa using ih

theorem splitBySeparator_mem_ne_nil (s sep p : Str) (hp : p ∈ splitBySeparator s sep) :
    p ≠ [] := by
  rw [splitBySeparator] at hp
  by_cases he : sep.isEmpty
  · rw [if_pos he] at hp
    have := List.of_mem_filter hp
    intro hnil
    subst hnil
    simp [trim, ltrim, rtrim] at this
  · rw [if_neg he] at hp
    have := List.of_mem_filter hp
    intro hnil
    subst hnil
    simp [trim, ltrim, rtrim] at this

theorem splitBySeparator_flatten_length (s sep : Str) (hsep : sep ≠ []) :
    ((splitBySeparator s sep).flatten).length ≤ s.length := by
  rw [splitBySeparator, if_neg (by simpa using hsep)]
  rcases hsplit : splitOnStr sep s with _ | ⟨p, ps⟩
  · exact absurd hsplit (splitOnStr_ne_nil sep s)
  · set R := p :: ps.map (fun q => sep ++ q) with hR
    have hsub : (R.filter (fun q => decide (trim q ≠ []))).Sublist R := List.filter_sublist R
    have hlen : ((R.filter (fun q => decide (trim q ≠ []))).map List.length).Sublist
        (R.map List.length) := hsub.map _
    have hsum := sublist_sum_le _ _ hlen
    have hflat : R.flatten.length = s.length := by
      rw [hR, flatten_reattach_parts, ← hsplit, splitOnStr_reattach sep hsep s]
    rw [List.length_flatten] at hflat ⊢
    exact le_trans hsum (le_of_eq hflat)

theorem splitBySeparator_part_lt (s sep : Str) (hsep : sep ≠ []) (p : Str)
    (hp : p ∈ splitBySeparator s sep) (h2 : 2 ≤ (splitBySeparator s sep).length) :
    p.length < s.length := by
  obtain ⟨L1, L2, hL⟩ := List.append_of_mem hp
  have hq : ∃ q, q ∈ splitBySeparator s sep ∧ q ≠ p ∨ True := ⟨p, Or.inr trivial⟩
  have hother : ∃ q ∈ L1 ++ L2, True := by
    rcases L1 with _ | ⟨q, L1'⟩
    · rcases L2 with _ | ⟨q, L2'⟩
      · rw [hL] at h2; simp at h2
      · exact ⟨q, by simp, trivial⟩
    · exact ⟨q, by simp, trivial⟩
  obtain ⟨q, hqmem, -⟩ := hother
  have hqF : q ∈ splitBySeparator s sep := by
    rw [hL]
    rcases List.mem_append.mp hqmem with h | h
    · exact List.mem_append_left _ h
    · exact List.mem_append_right _ (List.mem_cons_of_mem _ h)
  have hqne : q ≠ [] := splitBySeparator_mem_ne_nil s sep q hqF
  have hq1 : 1 ≤ q.length := by
    cases q
    · exact absurd rfl hqne
    · simp
  have hsum : ((splitBySeparator s sep).flatten).length =
      (L1.flatten).length + p.length + (L2.flatten).length := by
    rw [hL]
    simp
    omega
  have hqin : q.length ≤ (L1.flatten).length + (L2.flatten).length := by
    rcases List.mem_append.mp hqmem with h | h
    · obtain ⟨A, B, hAB⟩ := List.append_of_mem h
      have : (L1.flatten).length = A.flatten.length + q.length + B.flatten.length := by
        rw [hAB]; simp; omega
      omega
    · obtain ⟨A, B, hAB⟩ := List.append_of_mem h
      have : (L2.flatten).length = A.flatten.length + q.length + B.flatten.length := by
        rw [hAB]; simp; omega
      omega
  have hbound := splitBySeparator_flatten_length s sep hsep
  omega

/-- Dropping empty pieces does not change the concatenation. -/
theorem flatten_filter_ne_nil (L : List Str) :
    (L.filter (fun p => p ≠ [])).flatten = L.flatten := by
  induction L with
  | nil => rfl
  | cons q L' ih =>
    by_cases hq : q = []
    · subst hq
      rw [List.filter_cons_of_neg (by simp)]
      simpa using ih
    · rw [List.filter_cons_of_pos (by simpa using hq)]
      rw [List.flatten_cons, List.flatten_cons, ih]

theorem forceSplitF_solid (C : Nat) (hC : 1 ≤ C) :
    ∀ (fuel : Nat) (t : Str), t.length ≤ fuel →
      solidChars ((forceSplitF C fuel t).flatten) = solidChars t := by
  intro fuel
  induction fuel with
  | zero =>
    intro t ht
    have : t = [] := List.length_eq_zero.mp (Nat.le_zero.mp ht)
    subst this
    rfl
  | succ f ih =>
    intro t ht
    cases t with
    | nil => rfl
    | cons c rest =>
      rw [forceSplitF]
      set t := c :: rest with htdef
      set e := min C t.length with he
      have ht1 : 1 ≤ t.length := by rw [htdef]; simp
      have he1 : 1 ≤ e := by rw [he]; exact le_min hC ht1
      have heC : e ≤ t.length := by rw [he]; exact Nat.min_le_right _ _
      have key : ∀ e', 1 ≤ e' →
          solidChars ((trim (t.take e') :: forceSplitF C f (t.drop e')).flatten) =
            solidChars t := by
        intro e' he'
        have hdroplen : (t.drop e').length ≤ f := by
          have : t.length ≤ f + 1 := ht
          have : (t.drop e').length = t.length - e' := by simp
          omega
        rw [List.flatten_cons, solidChars_append, solidChars_trim, ih _ hdroplen,
          ← solidChars_append, List.take_append_drop]
      by_cases hlt : e < t.length
      · rw [if_pos hlt]
        rcases hls : lastIndexOfCharLe ' ' t e with _ | ls
        · exact key e he1
        · by_cases h2 : C < 2 * ls
          · have hls1 : 1 ≤ ls := by omega
            simpa [h2] using key ls hls1
          · simpa [h2] using key e he1
      · rw [if_neg hlt]
        exact key e he1

theorem SEPARATORS_getD_ne_nil :
    ∀ i, i < SEPARATORS.length → SEPARATORS.getD i [] ≠ [] := by decide

theorem solidChars_flatten_congr (g : Str → List Str) (parts : List Str)
    (h : ∀ p ∈ parts, solidChars ((g p).flatten) = solidChars p) :
    solidChars (((parts.map g).flatten).flatten) = solidChars parts.flatten := by
  induction parts with
  | nil => rfl
  | cons p ps ih =>
    simp only [List.map_cons, List.flatten_cons, List.flatten_append, solidChars_append]
    rw [h p (List.mem_cons_self _ _), ih (fun q hq => h q (List.mem_cons_of_mem _ hq))]

theorem recursiveSplitF_solid (C : Nat) (hC : 1 ≤ C) :
    ∀ (fuel : Nat) (text : Str) (i : Nat),
      22 * text.length + (SEPARATORS.length - i) + 1 ≤ fuel →
      solidChars ((recursiveSplitF C fuel text i).flatten) = solidChars text := by
  intro fuel
  induction fuel with
  | zero => intro text i h; omega
  | succ f ih =>
    intro text i hfuel
    rw [recursiveSplitF]
    by_cases hsmall : text.length ≤ C
    · rw [if_pos hsmall]; simp
    · rw [if_neg hsmall]
      by_cases hsep : SEPARATORS.length ≤ i
      · rw [if_pos hsep]
        rw [flatten_filter_ne_nil]
        exact forceSplitF_solid C hC text.length text (le_refl _)
      · rw [if_neg hsep]
        have hsepI : SEPARATORS.getD i [] ≠ [] :=
          SEPARATORS_getD_ne_nil i (by omega)
        by_cases h1 : (splitBySeparator text (SEPARATORS.getD i [])).length = 1
        · rw [if_pos h1]
          exact ih text (i + 1) (by omega)
        · rw [if_neg h1]
          set parts := splitBySeparator text (SEPARATORS.getD i []) with hparts
          have hmain : solidChars
              (((parts.map (fun p =>
                if C < p.length then recursiveSplitF C f p (i + 1) else [p])).flatten).flatten) =
              solidChars parts.flatten := by
            apply solidChars_flatten_congr
            intro p hp
            by_cases hpl : C < p.length
            · rw [if_pos hpl]
              have hlt : p.length < text.length := by
                apply splitBySeparator_part_lt text _ hsepI p hp
                rw [← hparts]
                have hne : parts ≠ [] := List.ne_nil_of_mem hp
                have hpos : 0 < parts.length := List.length_pos.mpr hne
                omega
              exact ih p (i + 1) (by omega)
            · rw [if_neg hpl]
              simp
          rw [hmain, hparts, solidChars_splitBySeparator text _ hsepI]

theorem recursiveSplit_solid (C : Nat) (hC : 1 ≤ C) (text : Str) :
    solidChars ((recursiveSplit C text).flatten) = solidChars text := by
  rw [recursiveSplit]
  exact recursiveSplitF_solid C hC _ text 0 (by simp [SEPARATORS]; omega)

theorem solidChars_of_trim_nil (s : Str) (h : trim s = []) : solidChars s = [] :=
  solidChars_all_ws s ((trim_eq_nil_iff s).mp h)

theorem mergeLoop_solid_sublist (C O : Nat) :
    ∀ (l : List Str) (cur : Str),
      (solidChars (cur ++ l.flatten)).Sublist
        (solidChars ((mergeLoop C O l cur).flatten)) := by
  intro l
  induction l with
  | nil =>
    intro cur
    rw [mergeLoop]
    by_cases h : trim cur ≠ []
    · rw [if_pos h]
      simp only [List.flatten_nil, List.append_nil, List.flatten_cons, solidChars_append,
        solidChars_trim]
      simp
    · rw [if_neg h]
      push_neg at h
      simp only [List.flatten_nil, List.append_nil, solidChars_of_trim_nil cur h]
      exact List.nil_sublist _
  | cons piece rest ih =>
    intro cur
    rw [mergeLoop]
    have hps : solidChars piece = solidChars (trim piece) := (solidChars_trim piece).symm
    by_cases ht : trim piece = []
    · rw [if_pos ht]
      have hnil : solidChars piece = [] := by rw [hps, ht]; rfl
      have : solidChars (cur ++ (piece :: rest).flatten) =
          solidChars (cur ++ rest.flatten) := by
        simp only [List.flatten_cons, solidChars_append, hnil, List.nil_append,
          List.append_assoc]
      rw [this]
      exact ih cur
    · rw [if_neg ht]
      by_cases hov : C < cur.length + (trim piece).length + 1 ∧ 0 < cur.length
      · rw [if_pos hov]
        have hLHS : solidChars (cur ++ (piece :: rest).flatten) =
            solidChars cur ++ (solidChars piece ++ solidChars rest.flatten) := by
          simp only [List.flatten_cons, solidChars_append, List.append_assoc]
        rw [hLHS]
        have hsuff : ∀ M : List Str,
            ((solidChars piece ++ solidChars rest.flatten).Sublist
              (solidChars M.flatten)) →
            (solidChars cur ++ (solidChars piece ++ solidChars rest.flatten)).Sublist
              (solidChars ((trim cur :: M).flatten)) := by
          intro M hM
          simp only [List.flatten_cons, solidChars_append, solidChars_trim]
          exact hM.append_left _
        by_cases hO : 0 < O ∧ O < cur.length
        · rw [if_pos hO]
          apply hsuff
          have h1 := ih (cur.drop (findOverlapStart cur O) ++ '\n' :: trim piece)
          have h2 : solidChars ((cur.drop (findOverlapStart cur O) ++ '\n' :: trim piece)
              ++ rest.flatten) =
              solidChars (cur.drop (findOverlapStart cur O)) ++
                (solidChars piece ++ solidChars rest.flatten) := by
            simp only [solidChars_append, List.append_assoc, List.cons_append]
            rw [solidChars_nl_cons, solidChars_append, solidChars_trim]
          rw [h2] at h1
          exact List.Sublist.trans (List.sublist_append_right _ _) h1
        · rw [if_neg hO]
          apply hsuff
          have h1 := ih (trim piece)
          rwa [solidChars_append, solidChars_trim] at h1
      · rw [if_neg hov]
        by_cases hce : cur.isEmpty
        · rw [if_pos hce]
          have hcur : cur = [] := by
            cases cur
            · rfl
            · simp at hce
          subst hcur
          have : solidChars ([] ++ (piece :: rest).flatten) =
              solidChars (trim piece ++ rest.flatten) := by
            simp only [List.nil_append, List.flatten_cons, solidChars_append, ← hps]
          rw [this]
          exact ih (trim piece)
        · rw [if_neg hce]
          have : solidChars (cur ++ (piece :: rest).flatten) =
              solidChars ((cur ++ '\n' :: trim piece) ++ rest.flatten) := by
            simp only [List.flatten_cons, solidChars_append, List.append_assoc,
              List.cons_append]
            rw [solidChars_nl_cons, solidChars_append, ← hps]
          rw [this]
          exact ih (cur ++ '\n' :: trim piece)

theorem buildChunks_contents (pre : Str) (O : Nat) :
    ∀ (l : List Str) (i0 : Nat) (pos : Int),
      (buildChunks pre O l i0 pos).map TextChunk.content = l := by
  intro l
  induction l with
  | nil => intro i0 pos; rfl
  | cons c rest ih =>
    intro i0 pos
    simp only [buildChunks, List.map_cons, ih]

/-- C1 (amended): no non-whitespace character of the preprocessed text is
dropped: the sequence of non-whitespace characters of `preprocessText T` is a
subsequence (in order, allowing the overlap-induced duplicates) of the
non-whitespace characters of the concatenated chunk contents.  Exact
character-for-character reconstruction, as originally claimed, fails because
the merge loop rewrites separator whitespace into joining newlines (see the
counterexample). -/
theorem chunkText_solid_sublist (T : Str) :
    (solidChars (preprocessText T)).Sublist
      (solidChars (((chunkText T 1000 200).map TextChunk.content).flatten)) := by
  rw [chunkText]
  by_cases hpre : (preprocessText T).isEmpty
  · rw [if_pos hpre]
    have h0 : preprocessText T = [] := by simpa using hpre
    rw [h0]
    exact List.nil_sublist _
  · rw [if_neg hpre]
    rw [buildChunks_contents]
    have h1 := mergeLoop_solid_sublist 1000 200
      (recursiveSplit 1000 (preprocessText T)) []
    rw [List.nil_append, recursiveSplit_solid 1000 (by norm_num)] at h1
    rw [mergeChunks]
    exact h1

/-! ## Streaming order and persistence (C3, C4) -/

theorem chunks_no_metadata (ts : List Str) :
    (ts.map StreamEvent.chunk).filter isMetadataEvt = [] := by
  induction ts with
  | nil => rfl
  | cons t rest ih => simp [isMetadataEvt, ih]

theorem chunks_no_terminal (ts : List Str) :
    (ts.map StreamEvent.chunk).filter isTerminalEvt = [] := by
  induction ts with
  | nil => rfl
  | cons t rest ih => simp [isTerminalEvt, ih]

theorem chunks_no_write (ts : List Str) :
    (ts.map StreamEvent.chunk).filter isAssistantWriteEvt = [] := by
  induction ts with
  | nil => rfl
  | cons t rest ih => simp [isAssistantWriteEvt, ih]

theorem chunks_payload (ts : List Str) :
    (ts.map StreamEvent.chunk).filterMap chunkPayload = ts := by
  induction ts with
  | nil => rfl
  | cons t rest ih => simpa [chunkPayload] using ih

theorem getLast?_cons_append (a : StreamEvent) (L T : List StreamEvent)
    (x : StreamEvent) (h : T.getLast? = some x) :
    (a :: (L ++ T)).getLast? = some x := by
  rw [← List.cons_append, List.getLast?_append, h]
  rfl

theorem requestEvents_getLast? (u : Str) (srcs : List NumberedSource)
    (delivered : List Str) (genFails : Bool) :
    (requestEvents u srcs delivered genFails).getLast? =
      some (if genFails then StreamEvent.errorEvt else StreamEvent.done) := by
  cases genFails
  · rw [requestEvents, streamEvents]
    refine getLast?_cons_append _ _ _ _ ?_
    simp
  · rw [requestEvents, streamEvents]
    refine getLast?_cons_append _ _ _ _ ?_
    simp

/-- C3: for every streaming chat request the observable order is fixed: the
user-message write is first; exactly one metadata event follows at position 1,
before every chunk event; the chunk events carry exactly the nonempty
generated fragments in generation order; exactly one terminal event closes
the stream, `done` on success and `errorEvt` on failure; and on the success
path the assistant write and the conversation-timestamp update occur
immediately before the final `done`. -/
theorem streaming_event_order (u : Str) (srcs : List NumberedSource)
    (delivered : List Str) (genFails : Bool) :
    (requestEvents u srcs delivered genFails)[0]? = some (StreamEvent.userWrite u) ∧
    (requestEvents u srcs delivered genFails)[1]? = some (StreamEvent.metadata srcs) ∧
    ((requestEvents u srcs delivered genFails).filter isMetadataEvt).length = 1 ∧
    (∀ (k : Nat) (t : Str),
      (requestEvents u srcs delivered genFails)[k]? = some (StreamEvent.chunk t) → 2 ≤ k) ∧
    (requestEvents u srcs delivered genFails).filterMap chunkPayload =
      delivered.filter (fun t => ¬ t.isEmpty) ∧
    ((requestEvents u srcs delivered genFails).filter isTerminalEvt).length = 1 ∧
    (requestEvents u srcs delivered genFails).getLast? =
      some (if genFails then StreamEvent.errorEvt else StreamEvent.done) ∧
    (genFails = false → ∃ pre, requestEvents u srcs delivered genFails =
      pre ++ [StreamEvent.assistantWrite ((delivered.filter (fun t => ¬ t.isEmpty)).flatten)
               (if srcs.isEmpty then none else some srcs),
             StreamEvent.touchChat, StreamEvent.done]) := by
  refine ⟨by simp [requestEvents, streamEvents], by simp [requestEvents, streamEvents],
    ?_, ?_, ?_, ?_, ?_, ?_⟩
  · rw [requestEvents, streamEvents]
    simp only [List.filter_cons, List.filter_append]
    rw [chunks_no_metadata]
    cases genFails <;> simp [isMetadataEvt]
  · intro k t h
    match k with
    | 0 => simp [requestEvents, streamEvents] at h
    | 1 => simp [requestEvents, streamEvents] at h
    | k + 2 => omega
  · rw [requestEvents, streamEvents]
    simp only [List.filterMap_cons, List.filterMap_append]
    rw [chunks_payload]
    cases genFails <;> simp [chunkPayload]
  · rw [requestEvents, streamEvents]
    simp only [List.filter_cons, List.filter_append]
    rw [chunks_no_terminal]
    cases genFails <;> simp [isTerminalEvt]
  · exact requestEvents_getLast? u srcs delivered genFails
  · intro hg
    subst hg
    refine ⟨StreamEvent.userWrite u :: StreamEvent.metadata srcs ::
      (delivered.filter (fun t => ¬ t.isEmpty)).map StreamEvent.chunk, ?_⟩
    rw [requestEvents, streamEvents]
    simp

/-- Witness for C3 at a concrete request (one nonempty fragment, success). -/
theorem streaming_event_order_witness :
    (requestEvents (("q").toList) [] [("h").toList] false)[0]? =
      some (StreamEvent.userWrite (("q").toList)) ∧
    2 ≤ 2 :=
  ⟨(streaming_event_order (("q").toList) [] [("h").toList] false).1,
   (streaming_event_order (("q").toList) [] [("h").toList] false).2.2.2.1 2
     (("h").toList) (by decide)⟩

/-- C4: assistant messages are all-or-nothing: when generation fails no
assistant write ever occurs and the stream ends with the error event (the
accumulated partial text is discarded); when generation completes, exactly
one assistant write occurs, its content is the ordered concatenation of all
forwarded fragments, and the numbered sources are attached exactly when at
least one exists. -/
theorem assistant_write_all_or_nothing (u : Str) (srcs : List NumberedSource)
    (delivered : List Str) (genFails : Bool) :
    (genFails = true →
      (requestEvents u srcs delivered genFails).filter isAssistantWriteEvt = [] ∧
      (requestEvents u srcs delivered genFails).getLast? = some StreamEvent.errorEvt) ∧
    (genFails = false →
      (requestEvents u srcs delivered genFails).filter isAssistantWriteEvt =
        [StreamEvent.assistantWrite ((delivered.filter (fun t => ¬ t.isEmpty)).flatten)
          (if srcs.isEmpty then none else some srcs)]) := by
  constructor
  · intro hg
    subst hg
    constructor
    · rw [requestEvents, streamEvents]
      simp only [List.filter_cons, List.filter_append]
      rw [chunks_no_write]
      simp [isAssistantWriteEvt]
    · have h := requestEvents_getLast? u srcs delivered true
      rwa [if_pos (by decide)] at h
  · intro hg
    subst hg
    rw [requestEvents, streamEvents]
    simp only [List.filter_cons, List.filter_append]
    rw [chunks_no_write]
    simp [isAssistantWriteEvt]

/-- Witness for C4 at concrete requests (one failing, one succeeding). -/
theorem assistant_write_all_or_nothing_witness :
    (requestEvents (("q").toList) [] [("h").toList] true).filter isAssistantWriteEvt = [] ∧
    (requestEvents (("q").toList) [] [("h").toList] false).filter isAssistantWriteEvt =
      [StreamEvent.assistantWrite
        (((([("h").toList] : List Str)).filter (fun t => ¬ t.isEmpty)).flatten)
        (if ([] : List NumberedSource).isEmpty then none else some [])] :=
  ⟨((assistant_write_all_or_nothing (("q").toList) [] [("h").toList] true).1 rfl).1,
   (assistant_write_all_or_nothing (("q").toList) [] [("h").toList] false).2 rfl⟩

/-! ## Retrieval mode and numbered sources (C5) -/

theorem numberSources_length (docMap : List (Str × Str)) :
    ∀ (l : List MatchResult) (i : Nat), (numberSources docMap l i).length = l.length := by
  intro l
  induction l with
  | nil => intro i; rfl
  | cons m rest ih => intro i; simp [numberSources, ih]

theorem numberSources_numbers (docMap : List (Str × Str)) :
    ∀ (l : List MatchResult) (i : Nat),
      (numberSources docMap l i).map NumberedSource.number = List.range' (i + 1) l.length := by
  intro l
  induction l with
  | nil => intro i; rfl
  | cons m rest ih =>
    intro i
    rw [numberSources, List.map_cons, List.length_cons, List.range'_succ, ih]

theorem numberSources_sims (docMap : List (Str × Str)) :
    ∀ (l : List MatchResult) (i : Nat),
      (numberSources docMap l i).map NumberedSource.similarity =
        l.map MatchResult.similarity := by
  intro l
  induction l with
  | nil => intro i; rfl
  | cons m rest ih => intro i; simp [numberSources, ih]

theorem numberSources_filename (docMap : List (Str × Str)) :
    ∀ (l : List MatchResult) (i : Nat) (s : NumberedSource),
      s ∈ numberSources docMap l i → s.filename = resolveFilename docMap s.document_id := by
  intro l
  induction l with
  | nil => intro i s h; simp [numberSources] at h
  | cons m rest ih =>
    intro i s h
    rw [numberSources] at h
    rcases List.mem_cons.mp h with h | h
    · subst h; rfl
    · exact ih (i + 1) s h

/-- C5: the retrieval mode is a total function of the ready-document count
and the match list, with exactly one of three mutually exclusive outcomes:
zero ready documents → no-documents mode with no embedding/search call; some
documents but no matches at threshold 1/2, top-k 5 → no-relevant-match mode;
at least one match → grounded mode with sources numbered exactly `1..n` in
match order (so similarity-descending when the store returns descending
order, and duplicate document ids stay distinct numbered sources), and a
document id that resolves to no filename gets the "Unknown document"
sentinel. -/
theorem retrieval_mode_trichotomy (docCount : Nat) (searchResult : List MatchResult)
    (docMap : List (Str × Str)) :
    (docCount = 0 → (chatRetrieval docCount searchResult docMap).mode = .noDocuments ∧
      (chatRetrieval docCount searchResult docMap).searchParams = none ∧
      (chatRetrieval docCount searchResult docMap).sources = []) ∧
    (0 < docCount →
      (chatRetrieval docCount searchResult docMap).searchParams = some ((1 : ℚ) / 2, 5)) ∧
    (0 < docCount → searchResult = [] →
      (chatRetrieval docCount searchResult docMap).mode = .noRelevantMatch) ∧
    (0 < docCount → searchResult ≠ [] →
      (chatRetrieval docCount searchResult docMap).mode = .grounded) ∧
    (0 < docCount →
      (chatRetrieval docCount searchResult docMap).sources.length = searchResult.length ∧
      (chatRetrieval docCount searchResult docMap).sources.map NumberedSource.number =
        List.range' 1 searchResult.length ∧
      (chatRetrieval docCount searchResult docMap).sources.map NumberedSource.similarity =
        searchResult.map MatchResult.similarity) ∧
    (∀ s ∈ (chatRetrieval docCount searchResult docMap).sources,
      docMap.lookup s.document_id = none → s.filename = unknownDocName) := by
  refine ⟨?_, ?_, ?_, ?_, ?_, ?_⟩
  · intro h
    subst h
    simp [chatRetrieval, numberSources]
  · intro h
    simp [chatRetrieval, Nat.pos_iff_ne_zero.mp h, h]
  · intro h he
    subst he
    simp [chatRetrieval, h, numberSources]
  · intro h hne
    have hlen : 0 < searchResult.length := List.length_pos.mpr hne
    have hns : 0 < (numberSources docMap searchResult 0).length := by
      rw [numberSources_length]; exact hlen
    simp [chatRetrieval, h, hns]
  · intro h
    simp only [chatRetrieval, if_pos h]
    exact ⟨numberSources_length docMap searchResult 0,
      numberSources_numbers docMap searchResult 0,
      numberSources_sims docMap searchResult 0⟩
  · intro s hs hnone
    have hsf : s.filename = resolveFilename docMap s.document_id := by
      rcases Nat.eq_zero_or_pos docCount with h0 | h0
      · subst h0
        simp [chatRetrieval, numberSources] at hs
      · simp only [chatRetrieval, if_pos h0] at hs
        exact numberSources_filename docMap searchResult 0 s hs
    rw [hsf, resolveFilename, hnone]

/-- Witness for C5 at a concrete query state (one ready document, two
matches with similarities 82% and 61%). -/
theorem retrieval_mode_trichotomy_witness :
    (chatRetrieval 1
      [MatchResult.mk (("c1").toList) (("d1").toList) (("t1").toList) ((82 : ℚ) / 100),
       MatchResult.mk (("c2").toList) (("d2").toList) (("t2").toList) ((61 : ℚ) / 100)]
      [((("d1").toList : Str), (("f1").toList : Str))]).mode = PromptMode.grounded :=
  (retrieval_mode_trichotomy 1 _ _).2.2.2.1 (by decide) (by simp)

/-! ## Document-processing pipeline (C7) -/

/-- C7 counterexample: a run in which the storage download and parse succeed
but the very first chunk embedding fails returns a 500 error and halts, yet
leaves the document's status at `processing` — it is never set to `error`
(only the download-failure branch sets `error`). -/
theorem process_document_counterexample :
    0 < (chunkText txtHello 1000 200).length ∧
    (processDocument true true txtHello (some 0)).response = .err 500 ∧
    (processDocument true true txtHello (some 0)).insertedChunks = 0 ∧
    (processDocument true true txtHello (some 0)).finalStatus = .processing ∧
    (processDocument true true txtHello (some 0)).finalStatus ≠ .error := by
  refine ⟨by decide, by decide, by decide, by decide, by decide⟩

/-- C7 (amended): the endpoint halts on the first upstream failure and never
rolls back: on a download failure the document status is set to `error`; on a
parse or chunk-embedding failure the endpoint returns a 500 error response
and performs no further chunk insertion (the chunks before the failing index
stay inserted), but the document status remains `processing` rather than
`error`; on success the status becomes `ready` and the chunk count is
returned. -/
theorem process_document_behavior (pOk : Bool) (text : Str) (ef : Option Nat) :
    (processDocument false pOk text ef =
      ⟨DocStatus.error, 0, PipelineResponse.err 500⟩) ∧
    (processDocument true false text ef =
      ⟨DocStatus.processing, 0, PipelineResponse.err 500⟩) ∧
    (∀ i, ef = some i → i < (chunkText text 1000 200).length →
      processDocument true true text ef =
        ⟨DocStatus.processing, i, PipelineResponse.err 500⟩) ∧
    (∀ i, ef = some i → (chunkText text 1000 200).length ≤ i →
      processDocument true true text ef =
        ⟨DocStatus.ready, (chunkText text 1000 200).length,
          PipelineResponse.ok (chunkText text 1000 200).length⟩) ∧
    (ef = none → processDocument true true text ef =
      ⟨DocStatus.ready, (chunkText text 1000 200).length,
        PipelineResponse.ok (chunkText text 1000 200).length⟩) := by
  refine ⟨by simp [processDocument], by simp [processDocument], ?_, ?_, ?_⟩
  · intro i hef hi
    subst hef
    simp [processDocument, hi]
  · intro i hef hi
    subst hef
    simp [processDocument, Nat.not_lt.mpr hi]
  · intro hef
    subst hef
    simp [processDocument]

/-- Witness for the amended C7 at a concrete failing run. -/
theorem process_document_behavior_witness :
    processDocument true true txtHello (some 0) =
      ⟨DocStatus.processing, 0, PipelineResponse.err 500⟩ :=
  (process_document_behavior true txtHello (some 0)).2.2.1 0 rfl (by decide)

/-! ## Idempotence of `preprocessText` (C6) -/

/-- C6 counterexample: `preprocessText` is not idempotent.  On `"a\nb\nc"`
the broken-sentence pass rewrites only the first `lowercase-newline-lowercase`
candidate (the global regex resumes after the match), producing `"a b\nc"`,
and a second application rewrites the remaining one to `"a b c"`. -/
theorem preprocess_idempotent_counterexample :
    preprocessText (preprocessText (("a\nb\nc").toList)) ≠
      preprocessText (("a\nb\nc").toList) := by decide

theorem drop_length_takeWhile (p : Char → Bool) (s : Str) :
    s.drop (s.takeWhile p).length = s.dropWhile p := by
  have h := List.takeWhile_append_dropWhile (p := p) (l := s)
  calc s.drop (s.takeWhile p).length
      = (s.takeWhile p ++ s.dropWhile p).drop (s.takeWhile p).length := by
        rw [h]
    _ = s.dropWhile p := List.drop_left _ _

theorem takeWhile_append_all (p : Char → Bool) (A r : Str) (hA : ∀ a ∈ A, p a = true) :
    (A ++ r).takeWhile p = A ++ r.takeWhile p := by
  induction A with
  | nil => rfl
  | cons a A' ih =>
    rw [List.cons_append, List.takeWhile_cons, if_pos (hA a (List.mem_cons_self _ _)),
      List.cons_append, ih (fun x hx => hA x (List.mem_cons_of_mem _ hx))]

theorem takeWhile_all (p : Char → Bool) (w : Str) (hw : ∀ a ∈ w, p a = true) :
    w.takeWhile p = w := by
  have := takeWhile_append_all p w [] hw
  simpa using this

theorem lastIdxOfAux_none (c : Char) :
    ∀ (l : Str) (i : Nat), c ∉ l → lastIdxOfAux c l i none = none := by
  intro l
  induction l with
  | nil => intro i h; rfl
  | cons x r ih =>
    intro i h
    rw [lastIdxOfAux, if_neg (fun hx => h (by rw [← hx]; exact List.mem_cons_self _ _))]
    exact ih (i + 1) (fun hm => h (List.mem_cons_of_mem _ hm))

theorem lastIdxOf_none (c : Char) (l : Str) (h : c ∉ l) : lastIdxOf c l = none :=
  lastIdxOfAux_none c l 0 h

theorem isSpaceTab_isWsChar (c : Char) (h : isSpaceTab c = true) : isWsChar c = true := by
  rw [isSpaceTab] at h
  rw [isWsChar]
  rcases Bool.or_eq_true_iff.mp h with h | h <;> simp [h]

theorem isDigitChar_not_ws (c : Char) (h : isDigitChar c = true) : isWsChar c = false := by
  rw [isDigitChar, Bool.and_eq_true, decide_eq_true_eq, decide_eq_true_eq] at h
  have h1 := h.1
  rw [isWsChar]
  simp only [Bool.or_eq_false_iff, decide_eq_false_iff_not]
  refine ⟨⟨⟨⟨⟨?_, ?_⟩, ?_⟩, ?_⟩, ?_⟩, ?_⟩ <;>
    · intro he
      subst he
      exact absurd h1 (by decide)

theorem gmScanF_nil (m : Str → Option Nat) :
    ∀ (fuel : Nat) (b : Bool), gmScanF m fuel b [] = [] := by
  intro fuel b
  cases fuel <;> rfl

theorem gmScanF_false_id (m : Str → Option Nat) :
    ∀ (fuel : Nat) (s : Str), '\n' ∉ s → gmScanF m fuel false s = s := by
  intro fuel
  induction fuel with
  | zero => intro s h; rfl
  | succ f ih =>
    intro s h
    cases s with
    | nil => rfl
    | cons c rest =>
      rw [gmScanF, if_neg Bool.false_ne_true]
      have hc : decide (c = '\n') = false :=
        decide_eq_false (fun hc => h (by rw [← hc]; exact List.mem_cons_self _ _))
      rw [hc, ih rest (fun hm => h (List.mem_cons_of_mem _ hm))]

theorem gmStrip_cases (m : Str → Option Nat) (s : Str) (hn : '\n' ∉ s)
    (hm : ∀ L, m s = some L → L = s.length) :
    gmStrip m s = s ∨ gmStrip m s = [] := by
  rw [gmStrip]
  cases s with
  | nil => left; rfl
  | cons c rest =>
    simp only [List.length_cons]
    rw [gmScanF, if_pos rfl]
    rcases hms : m (c :: rest) with _ | L
    · left
      dsimp only
      have hc : decide (c = '\n') = false :=
        decide_eq_false (fun hc => hn (by rw [← hc]; exact List.mem_cons_self _ _))
      rw [hc, gmScanF_false_id m rest.length rest
        (fun hmem => hn (List.mem_cons_of_mem _ hmem))]
    · right
      dsimp only
      have hL : L = rest.length + 1 := by simpa using hm L hms
      rw [if_neg (by omega : ¬ L = 0)]
      have hdrop : (c :: rest).drop L = [] := by
        rw [hL, List.drop_succ_cons, List.drop_length]
      rw [hdrop]
      exact gmScanF_nil m _ _

theorem gmStrip_full (m : Str → Option Nat) (s : Str) (hne : s ≠ [])
    (hm : m s = some s.length) : gmStrip m s = [] := by
  rw [gmStrip]
  cases s with
  | nil => exact absurd rfl hne
  | cons c rest =>
    simp only [List.length_cons]
    rw [gmScanF, if_pos rfl]
    rw [show m (c :: rest) = some (rest.length + 1) from by simpa using hm]
    dsimp only
    rw [if_neg (by omega : ¬ rest.length + 1 = 0)]
    have hdrop : (c :: rest).drop (rest.length + 1) = [] := by
      rw [List.drop_succ_cons, List.drop_length]
    rw [hdrop]
    exact gmScanF_nil m _ _

theorem gmStrip_id_of_none (m : Str → Option Nat) (s : Str) (hn : '\n' ∉ s)
    (hm : m s = none) : gmStrip m s = s := by
  rw [gmStrip]
  cases s with
  | nil => rfl
  | cons c rest =>
    simp only [List.length_cons]
    rw [gmScanF, if_pos rfl, hm]
    dsimp only
    have hc : decide (c = '\n') = false :=
      decide_eq_false (fun hc => hn (by rw [← hc]; exact List.mem_cons_self _ _))
    rw [hc, gmScanF_false_id m rest.length rest
      (fun hmem => hn (List.mem_cons_of_mem _ hmem))]

theorem replCRLF_id (s : Str) (h : '\r' ∉ s) : replCRLF s = s := by
  induction s with
  | nil => rfl
  | cons c rest ih =>
    rw [replCRLF.eq_def]
    split
    · rename_i heq
      exact absurd heq (by simp)
    · rename_i rest' heq
      injection heq with h1 h2
      exact absurd (by rw [h1]; exact List.mem_cons_self _ _ : '\r' ∈ c :: rest) h
    · rename_i c' rest' hnc heq
      injection heq with h1 h2
      rw [← h1, ← h2, ih (fun hm => h (List.mem_cons_of_mem _ hm))]

theorem replCR_id (s : Str) (h : '\r' ∉ s) : replCR s = s := by
  rw [replCR]
  induction s with
  | nil => rfl
  | cons c rest ih =>
    rw [List.map_cons,
      if_neg (fun hc => h (by rw [← hc]; exact List.mem_cons_self _ _)),
      ih (fun hm => h (List.mem_cons_of_mem _ hm))]

theorem fixBroken_id (s : Str) (h : '\n' ∉ s) : fixBroken s = s := by
  induction s with
  | nil => rfl
  | cons x rest ih =>
    rw [fixBroken.eq_def]
    split
    · rename_i heq
      exact absurd heq (by simp)
    · rename_i c' heq
      exact heq.symm
    · rename_i c' d' heq
      exact heq.symm
    · rename_i a' b' rest' heq
      injection heq with h1 h2
      exact absurd (by rw [h2]; exact List.mem_cons_self _ _ : '\n' ∈ rest)
        (fun hm => h (List.mem_cons_of_mem _ hm))
    · rename_i c' d' e' rest' hnc heq
      injection heq with h1 h2
      rw [← h1, ← h2, ih (fun hm => h (List.mem_cons_of_mem _ hm))]

theorem collapseNewlines_id (s : Str) (h : '\n' ∉ s) : collapseNewlines s = s := by
  induction s with
  | nil => rfl
  | cons x rest ih =>
    rw [collapseNewlines.eq_def]
    split
    · rename_i a b c rest' heq
      injection heq with h1 h2
      have ha : decide (a = '\n') = false := decide_eq_false
        (fun hc => h (by rw [h1, hc]; exact List.mem_cons_self _ _))
      rw [if_neg (by simp [ha])]
      rw [← h1, ← h2, ih (fun hm => h (List.mem_cons_of_mem _ hm))]
    · rfl

theorem splitLines_nf (s : Str) (h : '\n' ∉ s) : splitLines s = [s] := by
  induction s with
  | nil => rfl
  | cons c rest ih =>
    rw [splitLines.eq_def]
    split
    · rename_i heq
      exact absurd heq (by simp)
    · rename_i rest' heq
      injection heq with h1 h2
      exact absurd (by rw [h1]; exact List.mem_cons_self _ _ : '\n' ∈ c :: rest) h
    · rename_i c' rest' hnc heq
      injection heq with h1 h2
      rw [← h2, ih (fun hm => h (List.mem_cons_of_mem _ hm))]
      rw [← h1]

theorem isWsChar_not_digit (c : Char) (h : isWsChar c = true) : isDigitChar c = false := by
  cases hd : isDigitChar c
  · rfl
  · rw [isDigitChar_not_ws c hd] at h
    exact absurd h (by simp)

theorem takeWhile_eq_self_of_length (p : Char → Bool) (r : Str)
    (h : (r.takeWhile p).length = r.length) : r.takeWhile p = r :=
  (List.takeWhile_prefix p).eq_of_length h

theorem tailWsMatch_nf (r : Str) (hn : '\n' ∉ r) (k : Nat)
    (h : tailWsMatch r = some k) : k = r.length ∧ ∀ c ∈ r, isWsChar c = true := by
  simp only [tailWsMatch] at h
  by_cases hl : (r.takeWhile isWsChar).length = r.length
  · rw [if_pos hl] at h
    have heq : r.takeWhile isWsChar = r := takeWhile_eq_self_of_length _ r hl
    refine ⟨by rw [← Option.some_inj.mp h]; exact hl, ?_⟩
    intro c hc
    exact List.mem_takeWhile_imp (by rw [heq]; exact hc)
  · rw [if_neg hl] at h
    have hnone : lastIdxOf '\n' (r.takeWhile isWsChar) = none :=
      lastIdxOf_none _ _ (fun hm => hn ((List.takeWhile_sublist _).subset hm))
    rw [hnone] at h
    exact absurd h (by simp)

theorem tailWsMatch_of_all_ws (r : Str) (hw : ∀ c ∈ r, isWsChar c = true) :
    tailWsMatch r = some r.length := by
  simp only [tailWsMatch]
  rw [takeWhile_all _ r hw, if_pos rfl]

/-- Over newline-free text a digit-line match covers the whole string, which
decomposes as whitespace, a nonempty digit run, and whitespace. -/
theorem matchDigitLineAt_nf (s : Str) (hn : '\n' ∉ s) (L : Nat)
    (h : matchDigitLineAt s = some L) :
    L = s.length ∧ ∃ w1 d w2, s = w1 ++ d ++ w2 ∧ (∀ c ∈ w1, isWsChar c = true) ∧
      d ≠ [] ∧ (∀ c ∈ d, isDigitChar c = true) ∧ ∀ c ∈ w2, isWsChar c = true := by
  simp only [matchDigitLineAt, drop_length_takeWhile] at h
  by_cases hd : ((s.dropWhile isWsChar).takeWhile isDigitChar).isEmpty
  · rw [if_pos hd] at h
    exact absurd h (by simp)
  · rw [if_neg hd] at h
    rcases ht : tailWsMatch ((s.dropWhile isWsChar).dropWhile isDigitChar) with _ | k
    · rw [ht] at h
      exact absurd h (by simp)
    · rw [ht] at h
      have hnw2 : '\n' ∉ (s.dropWhile isWsChar).dropWhile isDigitChar :=
        fun hm => hn ((List.dropWhile_sublist _).subset ((List.dropWhile_sublist _).subset hm))
      obtain ⟨hk, hws2⟩ := tailWsMatch_nf _ hnw2 k ht
      have hs1 : s = s.takeWhile isWsChar ++ s.dropWhile isWsChar :=
        (List.takeWhile_append_dropWhile _ _).symm
      have hs2 : s.dropWhile isWsChar =
          (s.dropWhile isWsChar).takeWhile isDigitChar ++
            (s.dropWhile isWsChar).dropWhile isDigitChar :=
        (List.takeWhile_append_dropWhile _ _).symm
      have hL := Option.some_inj.mp h
      constructor
      · rw [← hL, hk]
        conv_rhs => rw [hs1]
        rw [List.length_append]
        conv_rhs => rw [hs2]
        rw [List.length_append]
        omega
      · refine ⟨s.takeWhile isWsChar, (s.dropWhile isWsChar).takeWhile isDigitChar,
          (s.dropWhile isWsChar).dropWhile isDigitChar, ?_, ?_, ?_, ?_, hws2⟩
        · rw [List.append_assoc, ← hs2, ← hs1]
        · intro c hc; exact List.mem_takeWhile_imp hc
        · intro hnil; rw [hnil] at hd; exact hd rfl
        · intro c hc; exact List.mem_takeWhile_imp hc

/-- Whitespace, a nonempty digit run, whitespace: the digit-line matcher
accepts. -/
theorem matchDigitLineAt_of_decomp (w1 d w2 : Str)
    (hw1 : ∀ c ∈ w1, isWsChar c = true) (hd0 : d ≠ [])
    (hd : ∀ c ∈ d, isDigitChar c = true) (hw2 : ∀ c ∈ w2, isWsChar c = true) :
    matchDigitLineAt (w1 ++ d ++ w2) ≠ none := by
  have hdnw : ∀ c ∈ d, isWsChar c = false := fun c hc => isDigitChar_not_ws c (hd c hc)
  have hw2nd : (List.takeWhile isDigitChar w2) = [] := by
    cases w2 with
    | nil => rfl
    | cons c w2' =>
      rw [List.takeWhile_cons,
        if_neg (by rw [isWsChar_not_digit c (hw2 c (List.mem_cons_self _ _))]; simp)]
  have htake : (w1 ++ d ++ w2).takeWhile isWsChar = w1 := by
    rw [List.append_assoc, takeWhile_append_all _ w1 _ hw1]
    cases d with
    | nil => exact absurd rfl hd0
    | cons c d' =>
      rw [List.cons_append, List.takeWhile_cons,
        if_neg (by rw [hdnw c (List.mem_cons_self _ _)]; simp), List.append_nil]
  have htaked : ((d ++ w2).takeWhile isDigitChar) = d := by
    rw [takeWhile_append_all _ d _ hd, hw2nd, List.append_nil]
  have hdne : d.isEmpty = false := by
    cases d with
    | nil => exact absurd rfl hd0
    | cons c d' => rfl
  simp only [matchDigitLineAt, htake]
  rw [List.append_assoc, List.drop_left, htaked,
    if_neg (by rw [hdne]; simp), List.drop_left,
    tailWsMatch_of_all_ws w2 hw2]
  simp

/-- Over newline-free text a Page-line match covers the whole string, which
decomposes as whitespace, `Page ` (case-insensitive), a nonempty digit run,
and whitespace. -/
theorem matchPageLineAt_nf (s : Str) (hn : '\n' ∉ s) (L : Nat)
    (h : matchPageLineAt s = some L) :
    L = s.length ∧ ∃ w1 c1 c2 c3 c4 d w2,
      s = w1 ++ c1 :: c2 :: c3 :: c4 :: ' ' :: (d ++ w2) ∧
      (∀ c ∈ w1, isWsChar c = true) ∧
      (c1 = 'P' ∨ c1 = 'p') ∧ (c2 = 'A' ∨ c2 = 'a') ∧
      (c3 = 'G' ∨ c3 = 'g') ∧ (c4 = 'E' ∨ c4 = 'e') ∧
      d ≠ [] ∧ (∀ c ∈ d, isDigitChar c = true) ∧ ∀ c ∈ w2, isWsChar c = true := by
  simp only [matchPageLineAt, drop_length_takeWhile] at h
  split at h
  · rename_i p a g e r2 heq
    split at h
    · rename_i hlet
      by_cases hie : (r2.takeWhile isDigitChar).isEmpty
      · rw [if_pos hie] at h
        exact absurd h (by simp)
      · rw [if_neg hie] at h
        rcases ht : tailWsMatch (r2.dropWhile isDigitChar) with _ | k
        · rw [ht] at h
          exact absurd h (by simp)
        · rw [ht] at h
          have hs1 : s = s.takeWhile isWsChar ++ s.dropWhile isWsChar :=
            (List.takeWhile_append_dropWhile _ _).symm
          have hsr : s = s.takeWhile isWsChar ++ p :: a :: g :: e :: ' ' :: r2 := by
            rw [← heq]
            exact hs1
          have hnr2 : '\n' ∉ r2 := by
            intro hm
            exact hn (by rw [hsr]; exact List.mem_append_right _ (by simp [hm]))
          have hnw2 : '\n' ∉ r2.dropWhile isDigitChar :=
            fun hm => hnr2 ((List.dropWhile_sublist _).subset hm)
          obtain ⟨hk, hws2⟩ := tailWsMatch_nf _ hnw2 k ht
          have hr2 : r2 = r2.takeWhile isDigitChar ++ r2.dropWhile isDigitChar :=
            (List.takeWhile_append_dropWhile _ _).symm
          have hL := Option.some_inj.mp h
          rw [Bool.and_eq_true, Bool.and_eq_true, Bool.and_eq_true] at hlet
          constructor
          · have hlen : s.length = (s.takeWhile isWsChar).length + 5 + r2.length := by
              conv_lhs => rw [hsr]
              simp only [List.length_append, List.length_cons]
              omega
            have hr2len : r2.length = (r2.takeWhile isDigitChar).length +
                (r2.dropWhile isDigitChar).length := by
              conv_lhs => rw [hr2]
              rw [List.length_append]
            omega
          · refine ⟨s.takeWhile isWsChar, p, a, g, e, r2.takeWhile isDigitChar,
              r2.dropWhile isDigitChar, ?_, ?_, ?_, ?_, ?_, ?_, ?_, ?_, hws2⟩
            · rw [← hr2]
              exact hsr
            · intro c hc
              exact List.mem_takeWhile_imp hc
            · simpa using hlet.1.1.1
            · simpa using hlet.1.1.2
            · simpa using hlet.1.2
            · simpa using hlet.2
            · intro hnil
              rw [hnil] at hie
              exact hie rfl
            · intro c hc
              exact List.mem_takeWhile_imp hc
    · exact absurd h (by simp)
  · exact absurd h (by simp)

/-- Whitespace, `Page ` (case-insensitive), digits, whitespace: the Page-line
matcher accepts. -/
theorem matchPageLineAt_of_decomp (w1 : Str) (c1 c2 c3 c4 : Char) (d w2 : Str)
    (hw1 : ∀ c ∈ w1, isWsChar c = true)
    (h1 : c1 = 'P' ∨ c1 = 'p') (h2 : c2 = 'A' ∨ c2 = 'a')
    (h3 : c3 = 'G' ∨ c3 = 'g') (h4 : c4 = 'E' ∨ c4 = 'e')
    (hd0 : d ≠ []) (hd : ∀ c ∈ d, isDigitChar c = true)
    (hw2 : ∀ c ∈ w2, isWsChar c = true) :
    matchPageLineAt (w1 ++ c1 :: c2 :: c3 :: c4 :: ' ' :: (d ++ w2)) ≠ none := by
  have hc1ws : isWsChar c1 = false := by
    rcases h1 with h | h <;> rw [h] <;> decide
  have htake : (w1 ++ c1 :: c2 :: c3 :: c4 :: ' ' :: (d ++ w2)).takeWhile isWsChar = w1 := by
    rw [takeWhile_append_all _ w1 _ hw1, List.takeWhile_cons,
      if_neg (by rw [hc1ws]; simp), List.append_nil]
  have hdrop : (w1 ++ c1 :: c2 :: c3 :: c4 :: ' ' :: (d ++ w2)).drop w1.length
      = c1 :: c2 :: c3 :: c4 :: ' ' :: (d ++ w2) := List.drop_left _ _
  have hdnw : ∀ c ∈ d, isWsChar c = false := fun c hc => isDigitChar_not_ws c (hd c hc)
  have hw2nd : (List.takeWhile isDigitChar w2) = [] := by
    cases w2 with
    | nil => rfl
    | cons c w2' =>
      rw [List.takeWhile_cons,
        if_neg (by rw [isWsChar_not_digit c (hw2 c (List.mem_cons_self _ _))]; simp)]
  have htaked : ((d ++ w2).takeWhile isDigitChar) = d := by
    rw [takeWhile_append_all _ d _ hd, hw2nd, List.append_nil]
  have hdne : d.isEmpty = false := by
    cases d with
    | nil => exact absurd rfl hd0
    | cons c d' => rfl
  have hb1 : (decide (c1 = 'P') || decide (c1 = 'p')) = true := by
    rcases h1 with h | h <;> simp [h]
  have hb2 : (decide (c2 = 'A') || decide (c2 = 'a')) = true := by
    rcases h2 with h | h <;> simp [h]
  have hb3 : (decide (c3 = 'G') || decide (c3 = 'g')) = true := by
    rcases h3 with h | h <;> simp [h]
  have hb4 : (decide (c4 = 'E') || decide (c4 = 'e')) = true := by
    rcases h4 with h | h <;> simp [h]
  simp only [matchPageLineAt, htake, hdrop]
  rw [hb1, hb2, hb3, hb4]
  simp only [Bool.and_self, Bool.true_and, if_true]
  rw [htaked, if_neg (by rw [hdne]; simp), List.drop_left, tailWsMatch_of_all_ws w2 hw2]
  simp

theorem takeWhile_append_head_false (p : Char → Bool) (A : Str) (c : Char) (B : Str)
    (hA : ∀ a ∈ A, p a = true) (hc : p c = false) :
    (A ++ c :: B).takeWhile p = A := by
  rw [takeWhile_append_all p A _ hA, List.takeWhile_cons, if_neg (by rw [hc]; simp),
    List.append_nil]

/-- Over newline-free text a dash-line match covers the whole string, which
decomposes as whitespace, `-`, whitespace, a nonempty digit run, whitespace,
`-`, and whitespace. -/
theorem matchDashLineAt_nf (s : Str) (hn : '\n' ∉ s) (L : Nat)
    (h : matchDashLineAt s = some L) :
    L = s.length ∧ ∃ w1 w2 d w3 w4,
      s = w1 ++ '-' :: (w2 ++ (d ++ (w3 ++ '-' :: w4))) ∧
      (∀ c ∈ w1, isWsChar c = true) ∧ (∀ c ∈ w2, isWsChar c = true) ∧
      d ≠ [] ∧ (∀ c ∈ d, isDigitChar c = true) ∧
      (∀ c ∈ w3, isWsChar c = true) ∧ ∀ c ∈ w4, isWsChar c = true := by
  simp only [matchDashLineAt, drop_length_takeWhile] at h
  split at h
  · rename_i r1 heq1
    by_cases hie : ((r1.dropWhile isWsChar).takeWhile isDigitChar).isEmpty
    · rw [if_pos hie] at h
      exact absurd h (by simp)
    · rw [if_neg hie] at h
      split at h
      · rename_i r4 heq2
        rcases ht : tailWsMatch r4 with _ | k
        · rw [ht] at h
          exact absurd h (by simp)
        · rw [ht] at h
          have hmemr1 : ∀ c, c ∈ r1 → c ∈ s := by
            intro c hc
            have : c ∈ s.dropWhile isWsChar := by
              rw [heq1]
              exact List.mem_cons_of_mem _ hc
            exact (List.dropWhile_sublist _).subset this
          have hmemr4 : ∀ c, c ∈ r4 → c ∈ s := by
            intro c hc
            have h1 : c ∈ ((r1.dropWhile isWsChar).dropWhile isDigitChar).dropWhile isWsChar := by
              rw [heq2]
              exact List.mem_cons_of_mem _ hc
            exact hmemr1 c ((List.dropWhile_sublist _).subset
              ((List.dropWhile_sublist _).subset ((List.dropWhile_sublist _).subset h1)))
          obtain ⟨hk, hws4⟩ := tailWsMatch_nf r4 (fun hm => hn (hmemr4 _ hm)) k ht
          have key : s = (s.takeWhile isWsChar) ++ '-' :: ((r1.takeWhile isWsChar) ++
              (((r1.dropWhile isWsChar).takeWhile isDigitChar) ++
                ((((r1.dropWhile isWsChar).dropWhile isDigitChar).takeWhile isWsChar) ++
                  '-' :: r4))) := by
            conv_lhs => rw [(List.takeWhile_append_dropWhile isWsChar s).symm, heq1]
            congr 1
            congr 1
            conv_lhs => rw [(List.takeWhile_append_dropWhile isWsChar r1).symm]
            congr 1
            conv_lhs => rw [(List.takeWhile_append_dropWhile isDigitChar
              (r1.dropWhile isWsChar)).symm]
            congr 1
            conv_lhs => rw [(List.takeWhile_append_dropWhile isWsChar
              ((r1.dropWhile isWsChar).dropWhile isDigitChar)).symm, heq2]
          have hL := Option.some_inj.mp h
          constructor
          · have hlen := congrArg List.length key
            simp only [List.length_append, List.length_cons] at hlen
            omega
          · refine ⟨s.takeWhile isWsChar, r1.takeWhile isWsChar,
              (r1.dropWhile isWsChar).takeWhile isDigitChar,
              ((r1.dropWhile isWsChar).dropWhile isDigitChar).takeWhile isWsChar,
              r4, key, ?_, ?_, ?_, ?_, ?_, hws4⟩
            · intro c hc
              exact List.mem_takeWhile_imp hc
            · intro c hc
              exact List.mem_takeWhile_imp hc
            · intro hnil
              rw [hnil] at hie
              exact hie rfl
            · intro c hc
              exact List.mem_takeWhile_imp hc
            · intro c hc
              exact List.mem_takeWhile_imp hc
      · exact absurd h (by simp)
  · exact absurd h (by simp)

/-- Whitespace, `-`, whitespace, digits, whitespace, `-`, whitespace: the
dash-line matcher accepts. -/
theorem matchDashLineAt_of_decomp (w1 w2 d w3 w4 : Str)
    (hw1 : ∀ c ∈ w1, isWsChar c = true) (hw2 : ∀ c ∈ w2, isWsChar c = true)
    (hd0 : d ≠ []) (hd : ∀ c ∈ d, isDigitChar c = true)
    (hw3 : ∀ c ∈ w3, isWsChar c = true) (hw4 : ∀ c ∈ w4, isWsChar c = true) :
    matchDashLineAt (w1 ++ '-' :: (w2 ++ (d ++ (w3 ++ '-' :: w4)))) ≠ none := by
  have hdnw : ∀ c ∈ d, isWsChar c = false := fun c hc => isDigitChar_not_ws c (hd c hc)
  have htake1 : (w1 ++ '-' :: (w2 ++ (d ++ (w3 ++ '-' :: w4)))).takeWhile isWsChar = w1 :=
    takeWhile_append_head_false _ w1 _ _ hw1 (by decide)
  have hdrop1 : List.drop w1.length (w1 ++ '-' :: (w2 ++ (d ++ (w3 ++ '-' :: w4))))
      = '-' :: (w2 ++ (d ++ (w3 ++ '-' :: w4))) := List.drop_left _ _
  have htake2 : (w2 ++ (d ++ (w3 ++ '-' :: w4))).takeWhile isWsChar = w2 := by
    cases d with
    | nil => exact absurd rfl hd0
    | cons c d' =>
      rw [List.cons_append]
      exact takeWhile_append_head_false _ w2 _ _ hw2 (hdnw c (List.mem_cons_self _ _))
  have hdrop2 : List.drop w2.length (w2 ++ (d ++ (w3 ++ '-' :: w4)))
      = d ++ (w3 ++ '-' :: w4) := List.drop_left _ _
  have htaked : (d ++ (w3 ++ '-' :: w4)).takeWhile isDigitChar = d := by
    cases w3 with
    | nil =>
      exact takeWhile_append_head_false _ d _ _ hd (by decide)
    | cons c w3' =>
      rw [List.cons_append]
      exact takeWhile_append_head_false _ d _ _ hd
        (isWsChar_not_digit c (hw3 c (List.mem_cons_self _ _)))
  have hdne : d.isEmpty = false := by
    cases d with
    | nil => exact absurd rfl hd0
    | cons c d' => rfl
  have hdrop3 : List.drop d.length (d ++ (w3 ++ '-' :: w4)) = w3 ++ '-' :: w4 :=
    List.drop_left _ _
  have htake3 : (w3 ++ '-' :: w4).takeWhile isWsChar = w3 :=
    takeWhile_append_head_false _ w3 _ _ hw3 (by decide)
  have hdrop4 : List.drop w3.length (w3 ++ '-' :: w4) = '-' :: w4 := List.drop_left _ _
  simp only [matchDashLineAt, htake1, hdrop1, htake2, hdrop2, htaked, hdne, hdrop3,
    htake3, hdrop4, tailWsMatch_of_all_ws w4 hw4]
  simp

theorem noAdjST_cons_of_head_false (d : Char) (X : Str) (hd : isSpaceTab d = false)
    (hX : noAdjST X = true) : noAdjST (d :: X) = true := by
  cases X with
  | nil => rfl
  | cons y Y =>
    simp only [noAdjST, Bool.and_eq_true]
    exact ⟨by rw [hd]; simp, hX⟩

theorem noAdjST_tail (a : Char) (X : Str) (h : noAdjST (a :: X) = true) :
    noAdjST X = true := by
  cases X with
  | nil => rfl
  | cons y Y =>
    simp only [noAdjST, Bool.and_eq_true] at h
    exact h.2

theorem noAdjST_append_right (A B : Str) (h : noAdjST (A ++ B) = true) :
    noAdjST B = true := by
  induction A with
  | nil => exact h
  | cons a A' ih =>
    rw [List.cons_append] at h
    exact ih (noAdjST_tail _ _ h)

theorem noAdjST_append_left : ∀ (A B : Str), noAdjST (A ++ B) = true →
    noAdjST A = true := by
  intro A
  induction A with
  | nil => intro B h; rfl
  | cons a A' ih =>
    intro B h
    cases A' with
    | nil => rfl
    | cons a2 A'' =>
      rw [List.cons_append, List.cons_append] at h
      simp only [noAdjST, Bool.and_eq_true] at h ⊢
      exact ⟨h.1, by have := ih B (by rw [List.cons_append]; exact h.2); exact this⟩

theorem collapseSpaceTab_chars : ∀ (n : Nat) (s : Str), s.length ≤ n →
    ∀ c ∈ collapseSpaceTab s, c ∈ s ∨ c = ' ' := by
  intro n
  induction n with
  | zero =>
    intro s hlen c hc
    rw [List.length_eq_zero.mp (Nat.le_zero.mp hlen)] at hc
    exact absurd hc (by simp [collapseSpaceTab])
  | succ n ih =>
    intro s hlen c hc
    cases s with
    | nil => exact absurd hc (by simp [collapseSpaceTab])
    | cons a t =>
      cases t with
      | nil =>
        simp only [collapseSpaceTab] at hc
        by_cases ha : isSpaceTab a = true
        · rw [if_pos ha] at hc
          right
          simpa using hc
        · rw [if_neg ha] at hc
          left
          simpa using hc
      | cons b u =>
        simp only [collapseSpaceTab] at hc
        simp only [List.length_cons] at hlen
        by_cases ha : isSpaceTab a = true
        · by_cases hb : isSpaceTab b = true
          · rw [if_pos ha, if_pos hb] at hc
            rcases ih (b :: u) (by simp only [List.length_cons]; omega) c hc with h | h
            · exact Or.inl (List.mem_cons_of_mem _ h)
            · exact Or.inr h
          · rw [if_pos ha, if_neg hb] at hc
            rcases List.mem_cons.mp hc with h | hc2
            · exact Or.inr h
            rcases List.mem_cons.mp hc2 with h | hc3
            · exact Or.inl (by rw [h]; exact List.mem_cons_of_mem _ (List.mem_cons_self _ _))
            rcases ih u (by omega) c hc3 with h | h
            · exact Or.inl (List.mem_cons_of_mem _ (List.mem_cons_of_mem _ h))
            · exact Or.inr h
        · rw [if_neg ha] at hc
          rcases List.mem_cons.mp hc with h | hc2
          · exact Or.inl (by rw [h]; exact List.mem_cons_self _ _)
          rcases ih (b :: u) (by simp only [List.length_cons]; omega) c hc2 with h | h
          · exact Or.inl (List.mem_cons_of_mem _ h)
          · exact Or.inr h

theorem collapseSpaceTab_no_tab : ∀ (n : Nat) (s : Str), s.length ≤ n →
    '\t' ∉ collapseSpaceTab s := by
  intro n
  induction n with
  | zero =>
    intro s hlen
    rw [List.length_eq_zero.mp (Nat.le_zero.mp hlen)]
    simp [collapseSpaceTab]
  | succ n ih =>
    intro s hlen
    cases s with
    | nil => simp [collapseSpaceTab]
    | cons a t =>
      cases t with
      | nil =>
        simp only [collapseSpaceTab]
        by_cases ha : isSpaceTab a = true
        · rw [if_pos ha]
          simp
        · rw [if_neg ha]
          intro hm
          have : '\t' = a := by simpa using hm
          rw [← this] at ha
          exact ha (by decide)
      | cons b u =>
        simp only [collapseSpaceTab]
        simp only [List.length_cons] at hlen
        by_cases ha : isSpaceTab a = true
        · by_cases hb : isSpaceTab b = true
          · rw [if_pos ha, if_pos hb]
            exact ih (b :: u) (by simp only [List.length_cons]; omega)
          · rw [if_pos ha, if_neg hb]
            intro hm
            rcases List.mem_cons.mp hm with h | hm2
            · exact absurd h.symm (by decide)
            rcases List.mem_cons.mp hm2 with h | hm3
            · rw [← h] at hb
              exact hb (by decide)
            · exact ih u (by omega) hm3
        · rw [if_neg ha]
          intro hm
          rcases List.mem_cons.mp hm with h | hm2
          · rw [← h] at ha
            exact ha (by decide)
          · exact ih (b :: u) (by simp only [List.length_cons]; omega) hm2

theorem collapseSpaceTab_noAdj : ∀ (n : Nat) (s : Str), s.length ≤ n →
    noAdjST (collapseSpaceTab s) = true := by
  intro n
  induction n with
  | zero =>
    intro s hlen
    rw [List.length_eq_zero.mp (Nat.le_zero.mp hlen)]
    rfl
  | succ n ih =>
    intro s hlen
    cases s with
    | nil => rfl
    | cons a t =>
      cases t with
      | nil =>
        simp only [collapseSpaceTab]
        by_cases ha : isSpaceTab a = true
        · rw [if_pos ha]
          rfl
        · rw [if_neg ha]
          rfl
      | cons b u =>
        simp only [collapseSpaceTab]
        simp only [List.length_cons] at hlen
        by_cases ha : isSpaceTab a = true
        · by_cases hb : isSpaceTab b = true
          · rw [if_pos ha, if_pos hb]
            exact ih (b :: u) (by simp only [List.length_cons]; omega)
          · rw [if_pos ha, if_neg hb]
            simp only [noAdjST, Bool.and_eq_true]
            refine ⟨by rw [Bool.eq_false_iff.mpr hb]; simp, ?_⟩
            exact noAdjST_cons_of_head_false b _ (Bool.eq_false_iff.mpr hb)
              (ih u (by omega))
        · rw [if_neg ha]
          exact noAdjST_cons_of_head_false a _ (by simpa using ha)
            (ih (b :: u) (by simp only [List.length_cons]; omega))

/-- On tab-free text with no adjacent space/tab pair, step 2's collapsing is
the identity. -/
theorem collapseSpaceTab_id : ∀ (n : Nat) (s : Str), s.length ≤ n →
    '\t' ∉ s → noAdjST s = true → collapseSpaceTab s = s := by
  intro n
  induction n with
  | zero =>
    intro s hlen ht hadj
    rw [List.length_eq_zero.mp (Nat.le_zero.mp hlen)]
    rfl
  | succ n ih =>
    intro s hlen ht hadj
    cases s with
    | nil => rfl
    | cons a t =>
      cases t with
      | nil =>
        simp only [collapseSpaceTab]
        by_cases ha : isSpaceTab a = true
        · have haSp : a = ' ' := by
            rw [isSpaceTab] at ha
            rcases Bool.or_eq_true_iff.mp ha with h | h
            · exact of_decide_eq_true h
            · exact absurd (of_decide_eq_true h) (fun hc => ht (by rw [hc]; exact List.mem_cons_self _ _))
          rw [if_pos ha, haSp]
        · rw [if_neg ha]
      | cons b u =>
        simp only [collapseSpaceTab]
        simp only [List.length_cons] at hlen
        by_cases ha : isSpaceTab a = true
        · by_cases hb : isSpaceTab b = true
          · exfalso
            simp only [noAdjST, Bool.and_eq_true] at hadj
            rw [ha, hb] at hadj
            simpa using hadj.1
          · rw [if_pos ha, if_neg hb]
            have haSp : a = ' ' := by
              rw [isSpaceTab] at ha
              rcases Bool.or_eq_true_iff.mp ha with h | h
              · exact of_decide_eq_true h
              · exact absurd (of_decide_eq_true h) (fun hc => ht (by rw [hc]; exact List.mem_cons_self _ _))
            rw [haSp, ih u (by omega)
              (fun hm => ht (List.mem_cons_of_mem _ (List.mem_cons_of_mem _ hm)))
              (noAdjST_tail _ _ (noAdjST_tail _ _ hadj))]
        · rw [if_neg ha, ih (b :: u) (by simp only [List.length_cons]; omega)
            (fun hm => ht (List.mem_cons_of_mem _ hm)) (noAdjST_tail _ _ hadj)]

theorem mem_trim (s : Str) (c : Char) (h : c ∈ trim s) : c ∈ s := by
  obtain ⟨w1, hw1, -⟩ := ltrim_decomp s
  obtain ⟨w2, hw2, -⟩ := rtrim_decomp (ltrim s)
  have h' : c ∈ rtrim (ltrim s) := by rw [trim] at h; exact h
  rw [hw1]
  exact List.mem_append_right _ (by rw [hw2]; exact List.mem_append_left _ h')

/-- A string is leading whitespace, its trim, and trailing whitespace. -/
theorem trim_decomp (s : Str) : ∃ lw tw, s = lw ++ (trim s ++ tw) ∧
    (∀ c ∈ lw, isWsChar c = true) ∧ ∀ c ∈ tw, isWsChar c = true := by
  obtain ⟨w1, hw1, h1⟩ := ltrim_decomp s
  obtain ⟨w2, hw2, h2⟩ := rtrim_decomp (ltrim s)
  refine ⟨w1, w2, ?_, h1, h2⟩
  rw [trim]
  conv_lhs => rw [hw1, hw2]

theorem noAdjST_trim (s : Str) (h : noAdjST s = true) : noAdjST (trim s) = true := by
  obtain ⟨w1, hw1, -⟩ := ltrim_decomp s
  have h1 : noAdjST (ltrim s) = true := noAdjST_append_right w1 _ (by rw [← hw1]; exact h)
  obtain ⟨w2, hw2, -⟩ := rtrim_decomp (ltrim s)
  have h2 : noAdjST (rtrim (ltrim s) ++ w2) = true := by rw [← hw2]; exact h1
  rw [trim]
  exact noAdjST_append_left _ w2 h2

theorem ws_prefix_nil_of_trimmed (s w B : Str) (hts : trim s = s)
    (hw : ∀ c ∈ w, isWsChar c = true) (hpre : s = w ++ B) : w = [] := by
  cases w with
  | nil => rfl
  | cons c w' =>
    exfalso
    have hh : s.head? = some c := by rw [hpre]; rfl
    have hns := head?_trim_not_ws s c (by rw [hts]; exact hh)
    rw [hw c (List.mem_cons_self _ _)] at hns
    exact absurd hns (by simp)

theorem ws_suffix_nil_of_trimmed (s A w : Str) (hts : trim s = s)
    (hw : ∀ c ∈ w, isWsChar c = true) (hsuf : s = A ++ w) : w = [] := by
  cases w with
  | nil => rfl
  | cons c w' =>
    exfalso
    have hne : (c :: w' : Str) ≠ [] := by simp
    have hl : s.getLast? = (c :: w').getLast? := by
      rw [hsuf]
      exact List.getLast?_append_of_ne_nil A hne
    have hlast : (c :: w').getLast? = some ((c :: w').getLast hne) :=
      List.getLast?_eq_getLast _ hne
    have hmem : (c :: w').getLast hne ∈ (c :: w') := List.getLast_mem hne
    have hns := getLast?_trim_not_ws s _ (by rw [hts, hl]; exact hlast)
    rw [hw _ hmem] at hns
    exact absurd hns (by simp)

theorem gmScanF_sublist (m : Str → Option Nat) :
    ∀ (fuel : Nat) (b : Bool) (s : Str), (gmScanF m fuel b s).Sublist s := by
  intro fuel
  induction fuel with
  | zero =>
    intro b s
    exact List.Sublist.refl s
  | succ f ih =>
    intro b s
    cases s with
    | nil =>
      rw [gmScanF_nil]
    | cons c rest =>
      rw [gmScanF]
      by_cases hb : b = true
      · rw [if_pos hb]
        rcases hm : m (c :: rest) with _ | L
        · dsimp only
          exact List.Sublist.cons₂ c (ih _ rest)
        · dsimp only
          by_cases hL : L = 0
          · rw [if_pos hL]
            exact List.Sublist.cons₂ c (ih _ rest)
          · rw [if_neg hL]
            exact (ih _ _).trans (List.drop_sublist _ _)
      · rw [if_neg hb]
        exact List.Sublist.cons₂ c (ih _ rest)

theorem gmStrip_not_mem (m : Str → Option Nat) (y : Str) (c : Char) (hy : c ∉ y) :
    c ∉ gmStrip m y :=
  fun hm => hy ((gmScanF_sublist m _ _ _).subset hm)

theorem dropWhile_append_all (p : Char → Bool) (A r : Str) (hA : ∀ a ∈ A, p a = true) :
    (A ++ r).dropWhile p = r.dropWhile p := by
  induction A with
  | nil => rfl
  | cons a A' ih =>
    rw [List.cons_append, List.dropWhile_cons, if_pos (hA a (List.mem_cons_self _ _))]
    exact ih (fun x hx => hA x (List.mem_cons_of_mem _ hx))

theorem rtrim_append_ws (a w : Str) (hw : ∀ c ∈ w, isWsChar c = true) :
    rtrim (a ++ w) = rtrim a := by
  rw [rtrim, rtrim, List.reverse_append]
  congr 1
  exact dropWhile_append_all _ w.reverse a.reverse
    (fun c hc => hw c (by simpa using hc))

theorem trim_append_ws (a w : Str) (hw : ∀ c ∈ w, isWsChar c = true) :
    trim (a ++ w) = trim a := by
  rw [trim, trim, ltrim, ltrim, List.dropWhile_append]
  by_cases hemp : (a.dropWhile isWsChar).isEmpty
  · rw [if_pos hemp]
    have hwnil : w.dropWhile isWsChar = [] :=
      List.dropWhile_eq_nil_iff.mpr (fun x hx => hw x hx)
    have hanil : a.dropWhile isWsChar = [] := by simpa using hemp
    rw [hwnil, hanil]
  · rw [if_neg hemp]
    exact rtrim_append_ws _ w hw

theorem rstripSpaceTab_decomp (l : Str) :
    ∃ w, l = rstripSpaceTab l ++ w ∧ ∀ c ∈ w, isSpaceTab c = true := by
  refine ⟨(l.reverse.takeWhile isSpaceTab).reverse, ?_, ?_⟩
  · have h := congrArg List.reverse
      (List.takeWhile_append_dropWhile isSpaceTab l.reverse)
    simp only [List.reverse_append, List.reverse_reverse] at h
    rw [rstripSpaceTab]
    exact h.symm
  · intro c hc
    exact List.mem_takeWhile_imp (by simpa using hc)

theorem rstripSpaceTab_eq_self_of_trimmed (s : Str) (hts : trim s = s) :
    rstripSpaceTab s = s := by
  obtain ⟨w, hw, hws⟩ := rstripSpaceTab_decomp s
  have hwnil : w = [] := ws_suffix_nil_of_trimmed s (rstripSpaceTab s) w hts
    (fun c hc => isSpaceTab_isWsChar c (hws c hc)) hw
  rw [hwnil, List.append_nil] at hw
  exact hw.symm

theorem stripTrailingWS_nf (y : Str) (hn : '\n' ∉ y) :
    stripTrailingWS y = rstripSpaceTab y := by
  rw [stripTrailingWS, splitLines_nf y hn]
  rfl

/-- On newline- and CR-free input, `preprocessText` collapses to: collapse
space/tab runs, strip artifact lines, trim. -/
theorem preprocess_nf_eq (s : Str) (hn : '\n' ∉ s) (hr : '\r' ∉ s) :
    preprocessText s = trim (stripDashLines (stripPageLines (stripDigitOnlyLines
      (collapseSpaceTab s)))) := by
  have hncst : '\n' ∉ collapseSpaceTab s := by
    intro hm
    rcases collapseSpaceTab_chars s.length s (le_refl _) '\n' hm with h | h
    · exact hn h
    · exact absurd h (by decide)
  have hn1 : '\n' ∉ stripDigitOnlyLines (collapseSpaceTab s) :=
    gmStrip_not_mem _ _ _ hncst
  have hn2 : '\n' ∉ stripPageLines (stripDigitOnlyLines (collapseSpaceTab s)) :=
    gmStrip_not_mem _ _ _ hn1
  have hn3 : '\n' ∉ stripDashLines (stripPageLines (stripDigitOnlyLines
      (collapseSpaceTab s))) :=
    gmStrip_not_mem _ _ _ hn2
  rw [preprocessText, replCRLF_id s hr, replCR_id s hr, fixBroken_id _ hncst,
    collapseNewlines_id _ hncst, stripTrailingWS_nf _ hn3]
  obtain ⟨w, hwdec, hws⟩ := rstripSpaceTab_decomp (stripDashLines (stripPageLines
    (stripDigitOnlyLines (collapseSpaceTab s))))
  calc trim (rstripSpaceTab (stripDashLines (stripPageLines (stripDigitOnlyLines
        (collapseSpaceTab s)))))
      = trim (rstripSpaceTab (stripDashLines (stripPageLines (stripDigitOnlyLines
        (collapseSpaceTab s)))) ++ w) :=
        (trim_append_ws _ w (fun c hc => isSpaceTab_isWsChar c (hws c hc))).symm
    _ = trim (stripDashLines (stripPageLines (stripDigitOnlyLines
        (collapseSpaceTab s)))) := by rw [← hwdec]

/-- On newline-free input the three artifact-stripping passes either leave
the text unchanged (and no matcher fires) or erase it entirely. -/
theorem strips_dichotomy (x : Str) (hn : '\n' ∉ x) :
    stripDashLines (stripPageLines (stripDigitOnlyLines x)) = [] ∨
      (stripDashLines (stripPageLines (stripDigitOnlyLines x)) = x ∧
        matchDigitLineAt x = none ∧ matchPageLineAt x = none ∧
        matchDashLineAt x = none) := by
  by_cases hx : x = []
  · left
    rw [hx]
    rfl
  · have step : ∀ (m : Str → Option Nat),
        (∀ L, m x = some L → L = x.length) →
        gmStrip m x = [] ∨ (gmStrip m x = x ∧ m x = none) := by
      intro m hmlen
      rcases gmStrip_cases m x hn hmlen with h | h
      · right
        refine ⟨h, ?_⟩
        rcases hm : m x with _ | L
        · rfl
        · exfalso
          have hfull := gmStrip_full m x hx (by rw [hm, hmlen L hm])
          rw [hfull] at h
          exact hx h.symm
      · left
        exact h
    rcases step matchDigitLineAt (fun L h => (matchDigitLineAt_nf x hn L h).1)
      with h1 | ⟨h1, hmD⟩
    · left
      rw [stripDigitOnlyLines, h1]
      rfl
    · rcases step matchPageLineAt (fun L h => (matchPageLineAt_nf x hn L h).1)
        with h2 | ⟨h2, hmP⟩
      · left
        rw [stripDigitOnlyLines, h1, stripPageLines, h2]
        rfl
      · rcases step matchDashLineAt (fun L h => (matchDashLineAt_nf x hn L h).1)
          with h3 | ⟨h3, hmDash⟩
        · left
          rw [stripDigitOnlyLines, h1, stripPageLines, h2, stripDashLines, h3]
        · right
          exact ⟨by rw [stripDigitOnlyLines, h1, stripPageLines, h2,
            stripDashLines, h3], hmD, hmP, hmDash⟩

/-- If `x` is collapsed, artifact-free text then `trim x` is a fixed point of
`preprocessText`. -/
theorem preprocess_fixed_core (x : Str) (hnx : '\n' ∉ x) (hrx : '\r' ∉ x)
    (htab : '\t' ∉ x) (hadj : noAdjST x = true)
    (hmD : matchDigitLineAt x = none) (hmP : matchPageLineAt x = none)
    (hmDash : matchDashLineAt x = none) :
    preprocessText (trim x) = trim x := by
  have hnP : '\n' ∉ trim x := fun hm => hnx (mem_trim x _ hm)
  have hrP : '\r' ∉ trim x := fun hm => hrx (mem_trim x _ hm)
  have htabP : '\t' ∉ trim x := fun hm => htab (mem_trim x _ hm)
  have hadjP : noAdjST (trim x) = true := noAdjST_trim x hadj
  have hcstP : collapseSpaceTab (trim x) = trim x :=
    collapseSpaceTab_id (trim x).length _ (le_refl _) htabP hadjP
  have htt : trim (trim x) = trim x := trim_trim x
  obtain ⟨lw, tw, hxdec, hlw, htw⟩ := trim_decomp x
  have hmDP : matchDigitLineAt (trim x) = none := by
    rcases hmd : matchDigitLineAt (trim x) with _ | L
    · rfl
    · exfalso
      obtain ⟨-, w1, d, w2, hdec, hw1, hd0, hd, hw2⟩ := matchDigitLineAt_nf _ hnP L hmd
      have hw1nil : w1 = [] := ws_prefix_nil_of_trimmed (trim x) w1 (d ++ w2) htt hw1
        (by rw [hdec, List.append_assoc])
      have hw2nil : w2 = [] := ws_suffix_nil_of_trimmed (trim x) (w1 ++ d) w2 htt hw2
        (by rw [hdec])
      rw [hw1nil, hw2nil, List.nil_append, List.append_nil] at hdec
      have hxeq : x = lw ++ d ++ tw := by
        rw [hxdec, hdec, List.append_assoc]
      have hcon := matchDigitLineAt_of_decomp lw d tw hlw hd0 hd htw
      rw [← hxeq] at hcon
      exact hcon hmD
  have hmPP : matchPageLineAt (trim x) = none := by
    rcases hmd : matchPageLineAt (trim x) with _ | L
    · rfl
    · exfalso
      obtain ⟨-, w1, c1, c2, c3, c4, d, w2, hdec, hw1, h1, h2, h3, h4, hd0, hd, hw2⟩ :=
        matchPageLineAt_nf _ hnP L hmd
      have hw1nil : w1 = [] := ws_prefix_nil_of_trimmed (trim x) w1
        (c1 :: c2 :: c3 :: c4 :: ' ' :: (d ++ w2)) htt hw1 hdec
      have hw2nil : w2 = [] := ws_suffix_nil_of_trimmed (trim x)
        (w1 ++ (c1 :: c2 :: c3 :: c4 :: ' ' :: d)) w2 htt hw2
        (by rw [hdec]; simp [List.append_assoc])
      rw [hw1nil, hw2nil, List.nil_append, List.append_nil] at hdec
      have hxeq : x = lw ++ c1 :: c2 :: c3 :: c4 :: ' ' :: (d ++ tw) := by
        rw [hxdec, hdec]
        simp [List.append_assoc]
      have hcon := matchPageLineAt_of_decomp lw c1 c2 c3 c4 d tw hlw h1 h2 h3 h4 hd0 hd htw
      rw [← hxeq] at hcon
      exact hcon hmP
  have hmDashP : matchDashLineAt (trim x) = none := by
    rcases hmd : matchDashLineAt (trim x) with _ | L
    · rfl
    · exfalso
      obtain ⟨-, w1, w2, d, w3, w4, hdec, hw1, hw2, hd0, hd, hw3, hw4⟩ :=
        matchDashLineAt_nf _ hnP L hmd
      have hw1nil : w1 = [] := ws_prefix_nil_of_trimmed (trim x) w1
        ('-' :: (w2 ++ (d ++ (w3 ++ '-' :: w4)))) htt hw1 hdec
      have hw4nil : w4 = [] := ws_suffix_nil_of_trimmed (trim x)
        (w1 ++ ('-' :: (w2 ++ (d ++ (w3 ++ ['-']))))) w4 htt hw4
        (by rw [hdec]; simp [List.append_assoc])
      rw [hw1nil, hw4nil, List.nil_append] at hdec
      have hxeq : x = lw ++ '-' :: (w2 ++ (d ++ (w3 ++ '-' :: tw))) := by
        rw [hxdec, hdec]
        simp [List.append_assoc]
      have hcon := matchDashLineAt_of_decomp lw w2 d w3 tw hlw hw2 hd0 hd hw3 htw
      rw [← hxeq] at hcon
      exact hcon hmDash
  rw [preprocess_nf_eq (trim x) hnP hrP, hcstP, stripDigitOnlyLines,
    gmStrip_id_of_none _ _ hnP hmDP, stripPageLines,
    gmStrip_id_of_none _ _ hnP hmPP, stripDashLines,
    gmStrip_id_of_none _ _ hnP hmDashP]
  exact htt

/-- C6 (corrected): `preprocessText` is idempotent on every input that
contains no newline and no carriage return.  (Idempotence fails in general,
see the counterexample: the broken-sentence regex resumes after each match
and can leave work for a second pass.) -/
theorem preprocess_idempotent_nf (T : Str) (hn : '\n' ∉ T) (hr : '\r' ∉ T) :
    preprocessText (preprocessText T) = preprocessText T := by
  have hncst : '\n' ∉ collapseSpaceTab T := by
    intro hm
    rcases collapseSpaceTab_chars T.length T (le_refl _) '\n' hm with h | h
    · exact hn h
    · exact absurd h (by decide)
  have hrcst : '\r' ∉ collapseSpaceTab T := by
    intro hm
    rcases collapseSpaceTab_chars T.length T (le_refl _) '\r' hm with h | h
    · exact hr h
    · exact absurd h (by decide)
  have htabcst : '\t' ∉ collapseSpaceTab T :=
    collapseSpaceTab_no_tab T.length T (le_refl _)
  have hadjcst : noAdjST (collapseSpaceTab T) = true :=
    collapseSpaceTab_noAdj T.length T (le_refl _)
  have hA := preprocess_nf_eq T hn hr
  rcases strips_dichotomy (collapseSpaceTab T) hncst with hy | ⟨hy, hmD, hmP, hmDash⟩
  · rw [hA, hy]
    rfl
  · rw [hA, hy]
    exact preprocess_fixed_core (collapseSpaceTab T) hncst hrcst htabcst hadjcst
      hmD hmP hmDash

/-- Witness for the corrected C6 theorem at the concrete input `"a  b"`. -/
theorem preprocess_idempotent_nf_witness :
    ('\n' ∉ ("a  b").toList ∧ '\r' ∉ ("a  b").toList) ∧
      preprocessText (preprocessText (("a  b").toList)) =
        preprocessText (("a  b").toList) :=
  ⟨⟨by decide, by decide⟩,
    preprocess_idempotent_nf (("a  b").toList) (by decide) (by decide)⟩

/-! ## Citation rendering (C9) -/

theorem markerAt_not_bracket (c : Char) (X : Str) (hc : ¬ c = '[') :
    markerAt (c :: X) = none := by
  rw [markerAt.eq_def]
  split
  · rename_i rest heq
    injection heq with h1 h2
    exact absurd h1 hc
  · rfl

theorem hasMarker_cons_false (c : Char) (rest : Str)
    (h : hasMarker (c :: rest) = false) :
    markerAt (c :: rest) = none ∧ hasMarker rest = false := by
  rw [hasMarker, Bool.or_eq_false_iff] at h
  refine ⟨?_, h.2⟩
  rcases hm : markerAt (c :: rest) with _ | p
  · rfl
  · rw [hm] at h
    exact absurd h.1 (by simp)

theorem firstCitationIn_none (s : Str) (h : hasMarker s = false) :
    firstCitationIn s = none := by
  induction s with
  | nil => rfl
  | cons c rest ih =>
    obtain ⟨h1, h2⟩ := hasMarker_cons_false c rest h
    rw [firstCitationIn, h1]
    exact ih h2

/-- `markerAt` accepts a bracketed nonempty digit run and returns its digits
and the remaining text. -/
theorem markerAt_marker (d B : Str) (hd0 : d ≠ [])
    (hd : ∀ c ∈ d, isDigitChar c = true) :
    markerAt ('[' :: (d ++ ']' :: B)) = some (d, B) := by
  have htaked : ((d ++ ']' :: B).takeWhile isDigitChar) = d :=
    takeWhile_append_head_false _ d _ _ hd (by decide)
  have hdne : d.isEmpty = false := by
    cases d with
    | nil => exact absurd rfl hd0
    | cons c d' => rfl
  simp only [markerAt, htaked, hdne]
  rw [List.drop_left]
  simp

/-- A successful `markerAt` pins down the shape of its input. -/
theorem markerAt_some_decomp (s : Str) (d r : Str) (h : markerAt s = some (d, r)) :
    s = '[' :: (d ++ ']' :: r) := by
  cases s with
  | nil => exact absurd h (by rw [show markerAt [] = none from rfl]; simp)
  | cons c rest =>
    by_cases hc : c = '['
    · subst hc
      simp only [markerAt, drop_length_takeWhile] at h
      by_cases hie : (rest.takeWhile isDigitChar).isEmpty
      · rw [if_pos hie] at h
        exact absurd h (by simp)
      · rw [if_neg hie] at h
        split at h
        · rename_i r' heq
          rw [Option.some_inj, Prod.mk.injEq] at h
          conv_lhs => rw [(List.takeWhile_append_dropWhile isDigitChar rest).symm, heq]
          rw [h.1, h.2]
        · exact absurd h (by simp)
    · rw [markerAt_not_bracket c rest hc] at h
      exact absurd h (by simp)

/-- If `markerAt` rejects nonempty `u`, it also rejects `u` followed by text
that begins with `'['`: a digit run crossing the boundary is stopped by the
`'['`, which is neither a digit nor the required `']'`. -/
theorem markerAt_append_bracket_none (u w : Str) (hu : markerAt u = none)
    (hne : u ≠ []) : markerAt (u ++ '[' :: w) = none := by
  cases u with
  | nil => exact absurd rfl hne
  | cons c u' =>
    by_cases hc : c = '['
    · subst hc
      rw [List.cons_append]
      simp only [markerAt, drop_length_takeWhile] at hu ⊢
      rcases hdw : u'.dropWhile isDigitChar with _ | ⟨e, u''⟩
      · have hall : ∀ x ∈ u', isDigitChar x = true :=
          List.dropWhile_eq_nil_iff.mp hdw
        have ht1 : (u' ++ '[' :: w).takeWhile isDigitChar = u' :=
          takeWhile_append_head_false _ u' _ _ hall (by decide)
        have hd1 : (u' ++ '[' :: w).dropWhile isDigitChar = '[' :: w := by
          rw [dropWhile_append_all _ u' _ hall, List.dropWhile_cons,
            if_neg (by decide)]
        rw [ht1, hd1]
        by_cases hie : u'.isEmpty
        · rw [if_pos hie]
        · rw [if_neg hie]
          split
          · rename_i r heq
            injection heq with h1 h2
            exact absurd h1 (by decide)
          · rfl
      · have hu'd : u' = u'.takeWhile isDigitChar ++ e :: u'' := by
          conv_lhs => rw [(List.takeWhile_append_dropWhile isDigitChar u').symm]
          rw [hdw]
        have htd : ∀ x ∈ u'.takeWhile isDigitChar, isDigitChar x = true :=
          fun x hx => List.mem_takeWhile_imp hx
        have he : isDigitChar e = false := by
          by_cases hdig : isDigitChar e = true
          · exfalso
            have hgrow : u'.takeWhile isDigitChar =
                u'.takeWhile isDigitChar ++ e :: (u''.takeWhile isDigitChar) := by
              conv_lhs => rw [hu'd]
              rw [takeWhile_append_all _ _ _ htd, List.takeWhile_cons, if_pos hdig]
            have hlen := congrArg List.length hgrow
            simp only [List.length_append, List.length_cons] at hlen
            omega
          · exact Bool.eq_false_iff.mpr hdig
        have ht1 : (u' ++ '[' :: w).takeWhile isDigitChar =
            u'.takeWhile isDigitChar := by
          conv_lhs => rw [hu'd]
          rw [List.append_assoc, List.cons_append]
          exact takeWhile_append_head_false _ _ _ _ htd he
        have hd1 : (u' ++ '[' :: w).dropWhile isDigitChar =
            e :: (u'' ++ '[' :: w) := by
          conv_lhs => rw [hu'd]
          rw [List.append_assoc, List.cons_append,
            dropWhile_append_all _ _ _ htd, List.dropWhile_cons,
            if_neg (by rw [he]; simp)]
        rw [ht1, hd1]
        rw [hdw] at hu
        by_cases hie : (u'.takeWhile isDigitChar).isEmpty
        · rw [if_pos hie]
        · rw [if_neg hie] at hu ⊢
          split at hu
          · rename_i r heq
            exact absurd hu (by simp)
          · rename_i hx hnc
            split
            · rename_i r heq2
              injection heq2 with h1 h2
              exact absurd (hnc u'' (by rw [h1])) (fun hh => hh)
            · rfl
    · rw [List.cons_append, markerAt_not_bracket c (u' ++ '[' :: w) hc]

/-- The split scanner walks a marker-free prefix `A` character by character,
accumulating it into the current literal part. -/
theorem splitCitationsAux_skip : ∀ (A : Str), hasMarker A = false →
    ∀ (fuel : Nat) (w part : Str) (acc : List Str), A.length ≤ fuel →
      splitCitationsAux fuel (A ++ '[' :: w) part acc =
        splitCitationsAux (fuel - A.length) ('[' :: w) (A.reverse ++ part) acc := by
  intro A
  induction A with
  | nil =>
    intro hA fuel w part acc hlen
    simp
  | cons a A' ih =>
    intro hA fuel w part acc hlen
    obtain ⟨h1, h2⟩ := hasMarker_cons_false a A' hA
    cases fuel with
    | zero => simp at hlen
    | succ f =>
      rw [List.cons_append, splitCitationsAux]
      have hm : markerAt (a :: (A' ++ '[' :: w)) = none := by
        rw [← List.cons_append]
        exact markerAt_append_bracket_none (a :: A') w h1 (by simp)
      rw [hm]
      dsimp only
      rw [ih h2 f w (a :: part) acc (by simp only [List.length_cons] at hlen; omega)]
      have hfuel : f + 1 - (a :: A').length = f - A'.length := by
        simp only [List.length_cons]
        omega
      have hpart : (a :: A').reverse ++ part = A'.reverse ++ (a :: part) := by
        simp
      rw [hfuel, hpart]

/-- On marker-free text the scanner returns the whole text as one part. -/
theorem splitCitationsAux_noMarker : ∀ (s : Str), hasMarker s = false →
    ∀ (fuel : Nat) (part : Str) (acc : List Str), s.length ≤ fuel →
      splitCitationsAux fuel s part acc = ((part.reverse ++ s) :: acc).reverse := by
  intro s
  induction s with
  | nil =>
    intro h fuel part acc hlen
    cases fuel <;> simp [splitCitationsAux]
  | cons c rest ih =>
    intro h fuel part acc hlen
    obtain ⟨h1, h2⟩ := hasMarker_cons_false c rest h
    cases fuel with
    | zero => simp at hlen
    | succ f =>
      rw [splitCitationsAux, h1]
      dsimp only
      rw [ih h2 f (c :: part) acc (by simp only [List.length_cons] at hlen; omega)]
      simp

/-- Completed parts accumulate on the front independently of the remaining
scan. -/
theorem splitCitationsAux_acc : ∀ (fuel : Nat) (s part : Str) (acc : List Str),
    splitCitationsAux fuel s part acc =
      acc.reverse ++ splitCitationsAux fuel s part [] := by
  intro fuel
  induction fuel with
  | zero =>
    intro s part acc
    cases s with
    | nil => simp [splitCitationsAux]
    | cons c r => simp [splitCitationsAux]
  | succ f ih =>
    intro s part acc
    cases s with
    | nil => simp [splitCitationsAux]
    | cons c r =>
      rw [splitCitationsAux, splitCitationsAux]
      rcases hm : markerAt (c :: r) with _ | ⟨d, rr⟩
      · dsimp only
        exact ih r (c :: part) acc
      · dsimp only
        rw [ih rr [] (('[' :: d ++ [']']) :: part.reverse :: acc),
          ih rr [] (('[' :: d ++ [']']) :: part.reverse :: [])]
        simp

/-- The scanner's result does not depend on the fuel once the fuel covers the
text length. -/
theorem splitCitationsAux_fuel : ∀ (n : Nat) (s : Str), s.length ≤ n →
    ∀ (fuel fuel' : Nat) (part : Str) (acc : List Str), s.length ≤ fuel →
      s.length ≤ fuel' →
      splitCitationsAux fuel s part acc = splitCitationsAux fuel' s part acc := by
  intro n
  induction n with
  | zero =>
    intro s hs fuel fuel' part acc hf hf'
    rw [List.length_eq_zero.mp (Nat.le_zero.mp hs)]
    cases fuel <;> cases fuel' <;> simp [splitCitationsAux]
  | succ n ih =>
    intro s hs fuel fuel' part acc hf hf'
    cases s with
    | nil => cases fuel <;> cases fuel' <;> simp [splitCitationsAux]
    | cons c r =>
      simp only [List.length_cons] at hs hf hf'
      cases fuel with
      | zero => omega
      | succ f =>
        cases fuel' with
        | zero => omega
        | succ f' =>
          rw [splitCitationsAux, splitCitationsAux]
          rcases hm : markerAt (c :: r) with _ | ⟨d, rr⟩
          · dsimp only
            exact ih r (by omega) f f' (c :: part) acc (by omega) (by omega)
          · dsimp only
            have hdec := markerAt_some_decomp (c :: r) d rr hm
            have hlen2 : r.length = d.length + 1 + rr.length := by
              have hh := congrArg List.length hdec
              simp only [List.length_cons, List.length_append] at hh
              omega
            exact ih rr (by omega) f f' [] (('[' :: d ++ [']']) :: part.reverse :: acc)
              (by omega) (by omega)

/-- `content.split(/(\[\d+\])/g)` on marker-free content yields the content
as its single part. -/
theorem splitCitations_noMarker (content : Str) (h : hasMarker content = false) :
    splitCitations content = [content] := by
  rw [splitCitations, splitCitationsAux_noMarker content h content.length [] []
    (le_refl _)]
  simp

/-- Peeling the leftmost marker: splitting `A ++ [d] ++ B` with marker-free
`A` yields the literal part `A`, the marker part `[d]`, and the split of the
rest. -/
theorem splitCitations_step (A d B : Str) (hA : hasMarker A = false)
    (hd0 : d ≠ []) (hd : ∀ c ∈ d, isDigitChar c = true) :
    splitCitations (A ++ '[' :: (d ++ ']' :: B)) =
      A :: ('[' :: (d ++ [']'])) :: splitCitations B := by
  rw [splitCitations]
  have hNlen : (A ++ '[' :: (d ++ ']' :: B)).length =
      A.length + d.length + 2 + B.length := by
    simp only [List.length_append, List.length_cons]
    omega
  rw [splitCitationsAux_skip A hA _ _ [] [] (by omega)]
  rw [hNlen]
  rw [show A.length + d.length + 2 + B.length - A.length =
    (d.length + 1 + B.length) + 1 from by omega]
  rw [splitCitationsAux, markerAt_marker d B hd0 hd]
  dsimp only
  rw [splitCitationsAux_acc]
  rw [splitCitationsAux_fuel B.length B (le_refl _) (d.length + 1 + B.length)
    B.length [] [] (by omega) (le_refl _)]
  rw [splitCitations]
  simp

/-- A lone marker part is parsed back to its number. -/
theorem firstCitationIn_marker (d : Str) (hd0 : d ≠ [])
    (hd : ∀ c ∈ d, isDigitChar c = true) :
    firstCitationIn ('[' :: (d ++ [']'])) = some (digitsToNat d) := by
  rw [firstCitationIn]
  rw [show (d ++ [']'] : Str) = d ++ ']' :: [] from rfl,
    markerAt_marker d [] hd0 hd]

/-- C9: the renderer resolves exactly the markers whose number has a matching
source and leaves everything else verbatim, never failing.  (1) Concretely,
on `"A[1]B[2][3]C"` with sources numbered 1 and 2, the markers `[1]` and `[2]`
become clickable citations and `[3]` stays literal text.  (2) Marker-free
content is rendered as a single verbatim literal.  (3) Universally, peeling
the leftmost marker: for any content `A ++ "[d]" ++ B` with marker-free `A`,
the renderer emits the literal `A`, then a clickable citation for `d`'s
number when some source carries it and the verbatim literal `"[d]"` when none
does, followed by the rendering of `B` — so by induction every marker with a
matching source resolves and every other marker stays literal.  (4) Soundness:
every rendered citation's number belongs to some provided source. -/
theorem citation_rendering :
    (renderMessageWithCitations (("A[1]B[2][3]C").toList) [c9src1, c9src2] =
      [Rendered.lit (("A").toList), Rendered.cite 1, Rendered.lit (("B").toList),
       Rendered.cite 2, Rendered.lit [], Rendered.lit (("[3]").toList),
       Rendered.lit (("C").toList)]) ∧
    (∀ (content : Str) (srcs : List NumberedSource),
      srcs.isEmpty = false → hasMarker content = false →
      renderMessageWithCitations content srcs = [Rendered.lit content]) ∧
    (∀ (A d B : Str) (srcs : List NumberedSource),
      srcs.isEmpty = false → hasMarker A = false → d ≠ [] →
      (∀ c ∈ d, isDigitChar c = true) →
      ((∃ s ∈ srcs, s.number = digitsToNat d) →
        renderMessageWithCitations (A ++ '[' :: (d ++ ']' :: B)) srcs =
          Rendered.lit A :: Rendered.cite (digitsToNat d) ::
            renderMessageWithCitations B srcs) ∧
      ((∀ s ∈ srcs, s.number ≠ digitsToNat d) →
        renderMessageWithCitations (A ++ '[' :: (d ++ ']' :: B)) srcs =
          Rendered.lit A :: Rendered.lit ('[' :: (d ++ [']'])) ::
            renderMessageWithCitations B srcs)) ∧
    (∀ (content : Str) (srcs : List NumberedSource) (n : Nat),
      Rendered.cite n ∈ renderMessageWithCitations content srcs →
      ∃ s ∈ srcs, s.number = n) := by
  refine ⟨by decide, ?_, ?_, ?_⟩
  · intro content srcs hs hnm
    rw [renderMessageWithCitations, if_neg (by rw [hs]; simp),
      splitCitations_noMarker content hnm]
    simp only [List.map_cons, List.map_nil]
    rw [firstCitationIn_none content hnm]
  · intro A d B srcs hs hA hd0 hd
    have hmain : renderMessageWithCitations (A ++ '[' :: (d ++ ']' :: B)) srcs =
        Rendered.lit A ::
          (match srcs.find? (fun s => s.number = digitsToNat d) with
           | some _ => Rendered.cite (digitsToNat d)
           | none => Rendered.lit ('[' :: (d ++ [']']))) ::
          renderMessageWithCitations B srcs := by
      rw [renderMessageWithCitations, if_neg (by rw [hs]; simp),
        splitCitations_step A d B hA hd0 hd]
      simp only [List.map_cons]
      rw [firstCitationIn_none A hA, firstCitationIn_marker d hd0 hd]
      rw [renderMessageWithCitations, if_neg (by rw [hs]; simp)]
    constructor
    · intro hex
      obtain ⟨s0, hs0, hnum⟩ := hex
      have hfs : (srcs.find? (fun s => s.number = digitsToNat d)).isSome :=
        List.find?_isSome.mpr ⟨s0, hs0, by simp [hnum]⟩
      rcases hf : srcs.find? (fun s => s.number = digitsToNat d) with _ | s1
      · rw [hf] at hfs
        exact absurd hfs (by simp)
      · rw [hmain, hf]
    · intro hall
      have hfn : srcs.find? (fun s => s.number = digitsToNat d) = none :=
        List.find?_eq_none.mpr (fun x hx => by simpa using hall x hx)
      rw [hmain, hfn]
  · intro content srcs n h
    rw [renderMessageWithCitations] at h
    by_cases he : srcs.isEmpty
    · rw [if_pos he] at h
      simp at h
    · rw [if_neg he] at h
      obtain ⟨part, -, hpart⟩ := List.mem_map.mp h
      rcases hfc : firstCitationIn part with _ | m
      · rw [hfc] at hpart
        simp at hpart
      · rw [hfc] at hpart
        dsimp only at hpart
        rcases hfind : srcs.find? (fun s => s.number = m) with _ | s
        · rw [hfind] at hpart
          simp at hpart
        · rw [hfind] at hpart
          simp only at hpart
          cases hpart
          refine ⟨s, List.mem_of_find?_eq_some hfind, ?_⟩
          have := List.find?_some hfind
          simpa using this

/-- Witness for C9's universal marker-peeling clause at a concrete message:
`"A[1]B"` with a source numbered 1 renders as the literal `A`, the citation
`1`, and the rendering of `"B"`. -/
theorem citation_rendering_witness :
    (([c9src1] : List NumberedSource).isEmpty = false ∧
      hasMarker (("A").toList) = false ∧ ("1").toList ≠ [] ∧
      (∀ c ∈ ("1").toList, isDigitChar c = true) ∧
      ∃ s ∈ [c9src1], s.number = digitsToNat (("1").toList)) ∧
    renderMessageWithCitations (("A[1]B").toList) [c9src1] =
      Rendered.lit (("A").toList) :: Rendered.cite (digitsToNat (("1").toList)) ::
        renderMessageWithCitations (("B").toList) [c9src1] := by
  refine ⟨⟨rfl, by decide, by decide, by decide,
    ⟨c9src1, List.mem_cons_self _ _, by decide⟩⟩, ?_⟩
  have h := (citation_rendering.2.2.1 (("A").toList) (("1").toList) (("B").toList)
    [c9src1] rfl (by decide) (by decide) (by decide)).1
    ⟨c9src1, List.mem_cons_self _ _, by decide⟩
  rw [show (("A[1]B").toList : Str) =
    ("A").toList ++ '[' :: ((("1").toList) ++ ']' :: ("B").toList) from by decide]
  exact h
